import Mathlib

/-!
# Verification of the `alpmap` Swiss-table core (`src/alp-set.cppm`)

This file is a shallow embedding, in Lean 4, of the Swiss-table hash container
implemented by `alp::Table` / `alp::Set` in `src/src/alp-set.cppm` (the module
variant at the end of that file, which is the one the `alp` module exports),
together with proofs of the specification claims about it.

Modelling conventions:

* `ctrl_t` (a `uint8_t`) is modelled as `Nat`; the named control values are
  `Empty = 0b1000_0000 = 128`, `Deleted = 0b1111_1110 = 254`,
  `Sentinel = 0b1111_1111 = 255`.  A byte is "full" iff `(ctrl & 0x80) == 0`,
  i.e. iff it is `< 128`.
* The SIMD backend (`SseBackend`) is modelled by its scalar semantics on a
  window of `GroupSize = 16` control bytes: `match` yields the ascending list
  of lanes equal to a byte, `matchEmpty`/`matchFull` likewise, `firstTrue` is
  the least set lane, `nextTrue mask off` the least set lane `≥ off`.
* The element type `T` is a type `K` with decidable equality; `Equal` is
  `std::equal_to` modelled as `=`.  The composition
  `Policy::apply ∘ Hash{}` (the "policy-applied hash", a `size_t`) is a single
  parameter `hashF : K → Nat`.  The hash-storage policy is the default
  `NoStoreHashTag`, under which `getSlotHash` recomputes `hashF`.
* A `Slot` is `Option K`: `some v` when the slot holds a constructed element,
  `none` when the raw storage is unconstructed.  Reading an unconstructed
  slot is undefined behaviour in C++; in the model such reads yield `none`
  and are excluded by the invariants under which the claims are stated.
* Unbounded `while (true)` probe loops are translated with explicit fuel and
  return `Option`; `none` models divergence of the C++ loop.  For the linear
  probe sequence, a loop that makes `groups` steps without stopping revisits
  its start group, so fuel `groups` is exact: the model returns `none` iff
  the C++ loop never stops.
* Floating-point load-factor arithmetic: with the default ratio 7/8 the code
  compares `size_ + 1 > capacity_ * 0.875` and computes
  `std::ceil(count / 0.875)`.  `0.875 = 7/8` is exact in binary, and for all
  attainable sizes (far below `2^49`) the double computations agree with the
  exact rational values, so they are modelled by `8 * (size+1) > 7 * capacity`
  and `⌈8·count/7⌉ = (8*count + 6) / 7`.
-/

namespace AlpSet

/-- `Backend::GroupSize` of the default (SSE) backend: 16 lanes per group. -/
def LANE : Nat := 16

/-- `Ctrl::Empty = 0b10000000`. -/
def ctrlEmpty : Nat := 128

/-- `Ctrl::Deleted = 0b11111110`. -/
def ctrlDeleted : Nat := 254

/-- `Ctrl::Sentinel = 0b11111111`. -/
def ctrlSentinel : Nat := 255

/-- `isFull(ctrl)`: the byte has top bit `0`, i.e. holds an `h2` fragment.
(`(ctrl & 0x80) == 0` for a byte is exactly `ctrl < 128`.) -/
def isFullByte (c : Nat) : Bool := c < 128

/-- `Table::h1`: extracts the upper bits of the policy-applied hash for group
selection (`hash >> 7`). -/
def h1 (hash : Nat) : Nat := hash >>> 7

/-- `Table::h2`: extracts the low 7 bits of the policy-applied hash
(`hash & 0x7F`). -/
def h2 (hash : Nat) : Nat := hash &&& 0x7F

/-- The state of an `alp::Table<K, Hash, Equal, Policy, SseBackend>`:
`size_`, `capacity_`, `ctrlLen_`, `groups_`, the control array and the slot
array.  (`used_` is never read; the buffer pointers are represented by the
arrays themselves.) -/
structure Table (K : Type) where
  size : Nat
  capacity : Nat
  ctrlLen : Nat
  groups : Nat
  ctrl : Array Nat
  slots : Array (Option K)
deriving DecidableEq, Repr

/-- A default-constructed `Table`: all counters zero, no buffer. -/
def Table.empty (K : Type) : Table K :=
  ⟨0, 0, 0, 0, #[], #[]⟩

instance {K : Type} : Inhabited (Table K) := ⟨Table.empty K⟩

variable {K : Type} [DecidableEq K]

/-- Reading the control byte at absolute index `i` (out-of-range reads are
undefined behaviour in C++; the model returns `0`, and all claims are stated
under invariants keeping reads in bounds). -/
def ctrlAt (t : Table K) (i : Nat) : Nat := t.ctrl.getD i 0

/-- Reading the slot at absolute index `i` (`none` = unconstructed storage). -/
def slotAt (t : Table K) (i : Nat) : Option K := t.slots.getD i none

/-- `Equal{}(key, *slots_[idx].element())`: key comparison against the element
stored at `idx`. -/
def slotEq (t : Table K) (key : K) (idx : Nat) : Bool :=
  match slotAt t idx with
  | some v => decide (v = key)
  | none => false

/-- `Group(ctrl_ + g*LANE).match(h2v)` followed by the backend's `iterate`:
the ascending list of lanes of group `g` whose control byte equals `h2v`. -/
def groupMatch (t : Table K) (g h2v : Nat) : List Nat :=
  (List.range LANE).filter (fun i => ctrlAt t (g * LANE + i) == h2v)

/-- The body of `for (int i : g.match(h2Val)) if (Equal{}(key, slot)) ...`:
the first matching lane whose element equals `key`, as an absolute index. -/
def groupHit (t : Table K) (key : K) (h2v g : Nat) : Option Nat :=
  ((groupMatch t g h2v).find? (fun i => slotEq t key (g * LANE + i))).map
    (fun i => g * LANE + i)

/-- `g.anyEmpty()`: some lane of group `g` is `Ctrl::Empty`. -/
def groupAnyEmpty (t : Table K) (g : Nat) : Bool :=
  (List.range LANE).any (fun i => ctrlAt t (g * LANE + i) == ctrlEmpty)

/-- `Backend::firstTrue(g.matchEmpty())`: the first `Empty` lane of group `g`. -/
def groupFirstEmpty (t : Table K) (g : Nat) : Option Nat :=
  (List.range LANE).find? (fun i => ctrlAt t (g * LANE + i) == ctrlEmpty)

/-- `Backend::iterate(g.matchFull())`: ascending list of full lanes of group
`g`. -/
def groupFullLanes (t : Table K) (g : Nat) : List Nat :=
  (List.range LANE).filter (fun i => isFullByte (ctrlAt t (g * LANE + i)))

/-- The probe loop of `Table::find_internal` (linear probing:
`group = (group + 1) & (groups_ - 1)`), with explicit fuel; `none` models a
loop that never stops. -/
def findLoop (t : Table K) (key : K) (h2v : Nat) : Nat → Nat → Option Nat
  | 0, _ => none
  | fuel + 1, group =>
    match groupHit t key h2v group with
    | some idx => some idx
    | none =>
      if groupAnyEmpty t group then some t.ctrlLen
      else findLoop t key h2v fuel ((group + 1) &&& (t.groups - 1))

/-- `Table::find_internal(key)`: returns the absolute slot index of the key,
`ctrlLen_` for not-found.  An empty table (`size_ == 0`) returns `ctrlLen_`
immediately, without reading the control array. -/
def find_internal (hashF : K → Nat) (t : Table K) (key : K) : Option Nat :=
  if t.size = 0 then some t.ctrlLen
  else
    let hash := hashF key
    let group := h1 hash &&& (t.groups - 1)
    findLoop t key (h2 hash) t.groups group

/-- The outcome of the probe phase of `Table::emplace_internal`: either a
duplicate was found at an absolute index, or the first `Empty` lane of the
first probed group that has one was found. -/
inductive ProbeOutcome where
  | dup (idx : Nat)
  | empty (idx : Nat)
deriving DecidableEq, Repr

/-- The probe loop of `Table::emplace_internal`: per group, first scan the
`h2` matches for a duplicate (`Equal{}(result, value)`), then look for the
first `Empty` lane (`Backend::firstTrue(g.matchEmpty())`); otherwise advance
linearly (`group = (group + 1) & mask`).  Fueled; `none` models divergence. -/
def emplaceProbe (t : Table K) (value : K) (h2v : Nat) : Nat → Nat → Option ProbeOutcome
  | 0, _ => none
  | fuel + 1, group =>
    match groupHit t value h2v group with
    | some idx => some (.dup idx)
    | none =>
      match groupFirstEmpty t group with
      | some off => some (.empty (group * LANE + off))
      | none => emplaceProbe t value h2v fuel ((group + 1) &&& (t.groups - 1))

/-- The insertion writes of `emplace_internal`'s success path:
`ctrl_[idx] = h2Val; construct slot; size_++`.  (Under the default
`NoStoreHashTag` policy `setSlotHash` is a no-op.) -/
def setSlot (t : Table K) (idx h2v : Nat) (v : K) : Table K :=
  { t with
    ctrl := t.ctrl.setD idx h2v
    slots := t.slots.setD idx (some v)
    size := t.size + 1 }

/-- `desired` of `Table::reserve`: `std::ceil(count / loadFactor)` with the
default ratio 7/8, i.e. `⌈8·count/7⌉` (exact in double for attainable sizes,
see the module docstring). -/
def desiredCapacity (count : Nat) : Nat := (8 * count + 6) / 7

/-- Fueled computation of `std::bit_ceil`: the smallest power of two `≥ x`
(and `1` for `x ≤ 1`).  The fuel only drives structural recursion; it is
sufficient whenever `x ≤ fuel + 1` (see `bitCeilLoop_spec`). -/
def bitCeilLoop : Nat → Nat → Nat
  | 0, _ => 1
  | fuel + 1, x => if x ≤ 1 then 1 else 2 * bitCeilLoop fuel ((x + 1) / 2)

/-- `std::bit_ceil(x)`: the smallest power of two `≥ x` (`1` for `x ≤ 1`). -/
def bitCeil (x : Nat) : Nat := bitCeilLoop x x

/-- `Table::findSmallestN(count)`:
`std::bit_ceil((count + 1 + LANE_COUNT - 1) / LANE_COUNT)` — the smallest
power-of-two group count whose capacity can hold `count` elements. -/
def findSmallestN (count : Nat) : Nat :=
  bitCeil ((count + 1 + (LANE - 1)) / LANE)

/-- The fresh control array built by `Table::rehashImpl`:
`memset(newCtrl, Empty, newCapacity)` then `newCtrl[newCapacity] = Sentinel`. -/
def freshCtrl (cap : Nat) : Array Nat :=
  (Array.mkArray cap ctrlEmpty).push ctrlSentinel

/-- The probe loop of `insertUnchecked` inside `Table::rehashImpl`: find the
first `Empty` lane of the first group (along the linear probe sequence) that
has one.  Fueled; `none` models divergence. -/
def emptyLoop (t : Table K) : Nat → Nat → Option Nat
  | 0, _ => none
  | fuel + 1, group =>
    match groupFirstEmpty t group with
    | some off => some (group * LANE + off)
    | none => emptyLoop t fuel ((group + 1) &&& (t.groups - 1))

/-- The relocation writes of `insertUnchecked` inside `Table::rehashImpl`:
move-construct (or memcpy) the element into the new slot and write its `h2`
control byte.  Unlike an insertion, relocation does not touch `size_`. -/
def relocateSlot (nt : Table K) (idx h2v : Nat) (v : K) : Table K :=
  { nt with
    ctrl := nt.ctrl.setD idx h2v
    slots := nt.slots.setD idx (some v) }

/-- `insertUnchecked(oldSlot)` of `Table::rehashImpl`, acting on the
under-construction table `nt`: recompute the hash (`getSlotHash` under the
default `NoStoreHashTag` policy), probe for the first empty lane from
`h1 & mask`, write `h2` and move the element.  Reading an unconstructed old
slot (`none`) is C++ UB; the model leaves `nt` unchanged, and the invariants
exclude it. -/
def insertUnchecked (hashF : K → Nat) (nt : Table K) (oldSlot : Option K) :
    Option (Table K) :=
  match oldSlot with
  | none => some nt
  | some v =>
    let fullHash := hashF v
    let g0 := h1 fullHash &&& (nt.groups - 1)
    (emptyLoop nt nt.groups g0).map (fun idx => relocateSlot nt idx (h2 fullHash) v)

/-- The old live slots walked by `Table::rehashImpl`: for each old group in
order, the slots at its full lanes in ascending lane order. -/
def oldLiveSlots (t : Table K) : List (Option K) :=
  (List.range t.groups).flatMap (fun g =>
    (groupFullLanes t g).map (fun i => slotAt t (g * LANE + i)))

/-- `Table::rehashImpl(newGroupCount)`: allocate fresh `Empty` control bytes
with a trailing `Sentinel`, relocate every old live element by unchecked
insertion, and install the new geometry.  `size_` is not modified. -/
def rehashImpl (hashF : K → Nat) (t : Table K) (newGroupCount : Nat) :
    Option (Table K) :=
  let count := LANE * newGroupCount
  let newCapacity := count - 1
  let nt0 : Table K :=
    { size := t.size, capacity := newCapacity, ctrlLen := count,
      groups := newGroupCount, ctrl := freshCtrl newCapacity,
      slots := Array.mkArray newCapacity none }
  (oldLiveSlots t).foldlM (insertUnchecked hashF) nt0

/-- `Table::rehash(count)`. -/
def rehash (hashF : K → Nat) (t : Table K) (count : Nat) : Option (Table K) :=
  rehashImpl hashF t (findSmallestN count)

/-- `Table::reserve(count)`: no-op when the desired capacity does not exceed
the current one, otherwise rehash. -/
def reserve (hashF : K → Nat) (t : Table K) (count : Nat) : Option (Table K) :=
  if desiredCapacity count ≤ t.capacity then some t
  else rehash hashF t (desiredCapacity count)

/-- `Table::emplace_internal(value, hash)`.  The outer fuel bounds the number
of rehash-and-restart rounds (`reserve(size_ + 1); return emplace_internal(...)`);
the probe itself is fueled by the current group count. -/
def emplace_internal (hashF : K → Nat) (value : K) (hash : Nat) :
    Nat → Table K → Option (Table K × Nat × Bool)
  | 0, _ => none
  | restart + 1, t0 =>
    (if t0.capacity = 0 then reserve hashF t0 1 else some t0).bind fun t =>
      match emplaceProbe t value (h2 hash) t.groups (h1 hash &&& (t.groups - 1)) with
      | none => none
      | some (.dup idx) => some (t, idx, false)
      | some (.empty idx) =>
        if 8 * (t.size + 1) > 7 * t.capacity then
          (reserve hashF t (t.size + 1)).bind (emplace_internal hashF value hash restart)
        else
          some (setSlot t idx (h2 hash) value, idx, true)

/-- `Table::emplace_wrapper` / `Set::emplace` / `Set::insert`: compute the
policy-applied hash of the (constructed) value and run the core insertion.
Returns the updated table, the absolute slot index, and whether insertion
took place. -/
def emplace (hashF : K → Nat) (t : Table K) (value : K) :
    Option (Table K × Nat × Bool) :=
  emplace_internal hashF value (hashF value) 2 t

/-- `Table::erase_slot(offset)`: destroy the element, decrement `size_`, and
mark the control byte `Empty` if the slot's (address-aligned) group currently
contains an `Empty` lane, `Deleted` otherwise.  `ctrl_` is `LANE`-aligned, so
the aligned group of `ctrl_ + offset` is group `offset / LANE`. -/
def erase_slot (t : Table K) (offset : Nat) : Table K :=
  let g := offset / LANE
  { t with
    slots := t.slots.setD offset none
    size := t.size - 1
    ctrl := t.ctrl.setD offset (if groupAnyEmpty t g then ctrlEmpty else ctrlDeleted) }

/-- `Set::contains(key)`: `find(key) != end()`. -/
def contains (hashF : K → Nat) (t : Table K) (key : K) : Option Bool :=
  (find_internal hashF t key).map (fun idx => decide (idx ≠ t.ctrlLen))

/-- `Set::erase(key)`: find, and if present erase the returned index and
return 1, else return 0. -/
def eraseKey (hashF : K → Nat) (t : Table K) (key : K) :
    Option (Table K × Nat) :=
  (find_internal hashF t key).map (fun idx =>
    if idx = t.ctrlLen then (t, 0) else (erase_slot t idx, 1))

/-- The library's error enumeration. -/
inductive Error where
  | NotFound
deriving DecidableEq, Repr

/-- `Set::get(key)`: the stored element on a hit, `Error::NotFound` on a
miss. -/
def get (hashF : K → Nat) (t : Table K) (key : K) :
    Option (Except Error K) :=
  (find_internal hashF t key).map (fun idx =>
    if idx = t.ctrlLen then .error .NotFound
    else
      match slotAt t idx with
      | some v => .ok v
      | none => .error .NotFound)

/-- `Set::tryErase(key)`: erase on a hit, `Error::NotFound` on a miss. -/
def tryErase (hashF : K → Nat) (t : Table K) (key : K) :
    Option (Except Error (Table K)) :=
  (find_internal hashF t key).map (fun idx =>
    if idx = t.ctrlLen then .error .NotFound
    else .ok (erase_slot t idx))

/-- `Table::clear()`: destroy all elements, free the buffer, reset to the
empty state. -/
def clear (_t : Table K) : Table K := Table.empty K

/-! ### Structural invariants (spec §3)

`WF` packages the invariants that hold between public operations: the
geometry (`groups` a power of two, array lengths), the sentinel discipline,
the correspondence between full control bytes and constructed slots, the
size accounting, and the reachability invariant (spec invariant 6): every
live element is found by `find` at its actual slot. -/

/-- Number of full control bytes among the `capacity` slot positions. -/
def fullCount (t : Table K) : Nat :=
  (List.range t.capacity).countP (fun i => isFullByte (ctrlAt t i))

/-- Geometry of an allocated table: a power-of-two group count and consistent
lengths (`ctrlLen = groups * LANE`, `capacity = ctrlLen - 1`, arrays of the
corresponding sizes). -/
def Geom (t : Table K) : Prop :=
  (∃ m < t.groups + 1, t.groups = 2 ^ m) ∧
    t.ctrlLen = LANE * t.groups ∧
    t.capacity + 1 = t.ctrlLen ∧
    t.ctrl.size = t.ctrlLen ∧
    t.slots.size = t.capacity

/-- Sentinel discipline: `ctrl[capacity]` is `Sentinel` and no other control
byte is. -/
def SentinelOk (t : Table K) : Prop :=
  ctrlAt t t.capacity = ctrlSentinel ∧
    ∀ i < t.capacity, ctrlAt t i ≠ ctrlSentinel

/-- Slot discipline: a slot holds a constructed element iff its control byte
is full, and every non-full byte below `capacity` is `Empty` or `Deleted`. -/
def SlotsOk (t : Table K) : Prop :=
  (∀ i < t.capacity, isFullByte (ctrlAt t i) = (slotAt t i).isSome) ∧
    ∀ i < t.capacity, isFullByte (ctrlAt t i) = true ∨
      ctrlAt t i = ctrlEmpty ∨ ctrlAt t i = ctrlDeleted

/-- Reachability (spec invariant 6): every live element, looked up by `find`,
is found at its actual slot. -/
def ReachOk (hashF : K → Nat) (t : Table K) : Prop :=
  ∀ i < t.capacity, ∀ v ∈ slotAt t i, find_internal hashF t v = some i

/-- The full between-operations invariant: the table is either in the
default/cleared empty state, or allocated and structurally sound. -/
def WF (hashF : K → Nat) (t : Table K) : Prop :=
  t = Table.empty K ∨
    (Geom t ∧ SentinelOk t ∧ SlotsOk t ∧ t.size = fullCount t ∧ ReachOk hashF t)

instance (hashF : K → Nat) (t : Table K) : Decidable (WF hashF t) := by
  unfold WF Geom SentinelOk SlotsOk ReachOk
  infer_instance

/-! ### The linear probe sequence -/

/-- The list of group indices visited by `fuel` steps of the linear probe
(`g, (g+1) & (G-1), …`). -/
def visitedG (G : Nat) : Nat → Nat → List Nat
  | 0, _ => []
  | f + 1, g => g :: visitedG G f ((g + 1) &&& (G - 1))

/-! ### Live slots and counting -/

/-- The indices of the live slots, in layout order. -/
def liveIdx (t : Table K) : List Nat :=
  (List.range t.capacity).filter (fun i => isFullByte (ctrlAt t i))

/-- Invariant of the relocation fold inside `rehashImpl`: the
under-construction table is geometrically sound, tombstone-free, holds
exactly the already-relocated elements, counts them, and every one of them is
reachable by the find loop. -/
def BuildOk (hashF : K → Nat) (nt : Table K) (placed : List K) : Prop :=
  (∃ m, nt.groups = 2 ^ m) ∧
  nt.ctrlLen = LANE * nt.groups ∧ nt.capacity + 1 = nt.ctrlLen ∧
  nt.ctrl.size = nt.ctrlLen ∧ nt.slots.size = nt.capacity ∧
  ctrlAt nt nt.capacity = ctrlSentinel ∧
  (∀ i < nt.capacity, isFullByte (ctrlAt nt i) = true ∨ ctrlAt nt i = ctrlEmpty) ∧
  (∀ i < nt.capacity, isFullByte (ctrlAt nt i) = (slotAt nt i).isSome) ∧
  fullCount nt = placed.length ∧
  (∀ v : K, (∃ i < nt.capacity, slotAt nt i = some v) ↔ v ∈ placed) ∧
  (∀ i < nt.capacity, ∀ v ∈ slotAt nt i,
    findLoop nt v (h2 (hashF v)) nt.groups (h1 (hashF v) &&& (nt.groups - 1)) = some i)

/-! ### The find contract, transcribed from the spec (for claim C2) -/

/-- The lookup contract transcribed from the SPEC's prose (not from the
code), to be compared with `find_internal`: in each probed group, enumerate
the lanes whose control byte equals `h2(H)` in ascending order, compare each
such lane's element against the key, and return the absolute slot index on
the first match; if the group has no match but holds an `Empty` lane, report
not-found (`ctrlLen`); otherwise advance to the next group of the (linear)
probe sequence, modulo the group count. -/
def findSpecLoop (t : Table K) (key : K) (h2v : Nat) : Nat → Nat → Option Nat
  | 0, _ => none
  | fuel + 1, g =>
    match (List.range LANE).find?
        (fun l => (ctrlAt t (g * LANE + l) == h2v) && slotEq t key (g * LANE + l)) with
    | some l => some (g * LANE + l)
    | none =>
      if (List.range LANE).any (fun l => ctrlAt t (g * LANE + l) == ctrlEmpty) then
        some t.ctrlLen
      else findSpecLoop t key h2v fuel ((g + 1) % t.groups)

/-- The full lookup contract transcribed from the SPEC's prose: a table with
`size = 0` reports not-found immediately; otherwise compute `H = hash(key)`,
start at group `h1(H)` reduced modulo the group count, and run the per-group
scan. -/
def findSpec (hashF : K → Nat) (t : Table K) (key : K) : Option Nat :=
  if t.size = 0 then some t.ctrlLen
  else findSpecLoop t key (h2 (hashF key)) t.groups (h1 (hashF key) % t.groups)

/-! ### Quadratic probing (claim C4)

The repository ships a `QuadraticProbing` collision policy (selected by a
template parameter; the probing step of the `Table` under `src/` is the
`LinearProbing` instance `group = (group + 1) & mask`).  The quadratic
policy's code is not under `src/`, so the definitions below are modelled
from the spec. -/

/-- Modelled from the spec: one step of the quadratic probe sequence,
`g_{i+1} = (g_i + i + 1) & (groups - 1)` (triangular-number stride). -/
def quadStep (groups g i : Nat) : Nat := (g + i + 1) &&& (groups - 1)

/-- Modelled from the spec: the group visited at step `n` of the quadratic
probe sequence that starts at the natural group `g0`. -/
def quadSeq (groups g0 : Nat) : Nat → Nat
  | 0 => g0
  | n + 1 => quadStep groups (quadSeq groups g0 n) n

/-- The `n`-th triangular number. -/
def tri (n : Nat) : Nat := n * (n + 1) / 2

/-! ### Iteration (claim C9) -/

/-- `Backend::firstTrue(g.matchFull())` for the group at aligned base `a`:
the first full lane. -/
def groupFirstFull (t : Table K) (a : Nat) : Option Nat :=
  (List.range LANE).find? (fun l => isFullByte (ctrlAt t (a + l)))

/-- `Backend::nextTrue(g.matchFull(), off)`: the first full lane at index
`≥ off` of the group at aligned base `a`. -/
def groupNextFull (t : Table K) (a off : Nat) : Option Nat :=
  (List.range LANE).find?
    (fun l => decide (off ≤ l) && isFullByte (ctrlAt t (a + l)))

/-- `Group::atEnd()`: some lane of the group at aligned base `a` is the
sentinel. -/
def groupAtEnd (t : Table K) (a : Nat) : Bool :=
  (List.range LANE).any (fun l => ctrlAt t (a + l) == ctrlSentinel)

/-- `SetIterator::skipEmptySlotsAligned`, on positions (`ctrl - ctrl_`),
fueled; `none` models divergence. -/
def skipAligned (t : Table K) : Nat → Nat → Option Nat
  | 0, _ => none
  | fuel + 1, p =>
    match groupFirstFull t p with
    | some l => some (p + l)
    | none =>
      if groupAtEnd t p then some (p + LANE)
      else skipAligned t fuel (p + LANE)

/-- `SetIterator::skipEmptySlots`: the first, possibly unaligned pass, then
the aligned loop.  The buffer is `LANE`-aligned (`AlignedAllocatorAdapter`),
so aligning the control-byte pointer down to a `LANE` address boundary is
aligning the position down to a multiple of `LANE`. -/
def skipEmptySlots (t : Table K) (p : Nat) : Option Nat :=
  let a := p / LANE * LANE
  if a = p then skipAligned t t.groups p
  else
    match groupNextFull t a (p - a) with
    | some l => some (a + l)
    | none =>
      if groupAtEnd t a then some (a + LANE)
      else skipAligned t t.groups (a + LANE)

/-- `SetIterator::operator++`: advance one position; stop if it is full,
else skip to the next full (or end) position. -/
def itNext (t : Table K) (p : Nat) : Option Nat :=
  if isFullByte (ctrlAt t (p + 1)) then some (p + 1)
  else skipEmptySlots t (p + 1)

/-- `Table::begin()`: position `0`, skipped forward when
`begin() != end()`, i.e. when `ctrlLen ≠ 0`. -/
def itBegin (t : Table K) : Option Nat :=
  if 0 = t.ctrlLen then some 0
  else skipEmptySlots t 0

/-- The positions visited by iterating from position `p` to `end()`
(`operator*` reads the slot, so a stop at a non-live, non-end position is
modelled as `none`), fueled. -/
def collectFrom (t : Table K) : Nat → Nat → Option (List Nat)
  | 0, _ => none
  | fuel + 1, p =>
    if p = t.ctrlLen then some []
    else
      match slotAt t p with
      | none => none
      | some _ => (itNext t p).bind fun p2 =>
          (collectFrom t fuel p2).map (fun l => p :: l)

/-- The positions visited by the full traversal from `begin()` to `end()`. -/
def iterPositions (t : Table K) : Option (List Nat) :=
  (itBegin t).bind fun p => collectFrom t (t.size + 1) p

/-- The elements collected by the full traversal `for (auto& e : set)`. -/
def iterElems (t : Table K) : Option (List K) :=
  (iterPositions t).map (fun l => l.filterMap (slotAt t))

/-- `q` is the first full position at or after `p` (`ctrlLen` if none). -/
def IsNextLive (t : Table K) (p q : Nat) : Prop :=
  p ≤ q ∧ q ≤ t.ctrlLen ∧
    (∀ r, p ≤ r → r < q → isFullByte (ctrlAt t r) = false) ∧
    (q = t.ctrlLen ∨ isFullByte (ctrlAt t q) = true)

/-- The live positions at or after `p`, in layout order. -/
def liveFrom (t : Table K) (p : Nat) : List Nat :=
  (List.range' p (t.capacity - p)).filter (fun i => isFullByte (ctrlAt t i))

/-- `Table(Table const&)` (copy constructor): the counters are copied; for
an allocated source (`buffer_ != nullptr`, i.e. `ctrlLen ≠ 0`) a fresh
buffer is `memset` to `Empty`, the live elements and their control bytes
are copied by iterating the source from `begin()` to `end()`, and the
sentinel is written at `capacity`. -/
def copyTable (t : Table K) : Option (Table K) :=
  if t.ctrlLen = 0 then some t
  else
    (iterPositions t).map (fun ps =>
      { size := t.size, capacity := t.capacity, ctrlLen := t.ctrlLen,
        groups := t.groups,
        ctrl := ps.foldl (fun c i => c.setD i (ctrlAt t i))
          (freshCtrl t.capacity),
        slots := ps.foldl (fun s i => s.setD i (slotAt t i))
          (Array.mkArray t.capacity none) })

/-! ### Sample data for the evaluation witnesses -/

/-- The identity hash on `Nat` (integer keys under `IdentityHashPolicy`, as
exercised by the repository's tests). -/
def idHash : Nat → Nat := fun n => n

/-- The table obtained by inserting `0, 1, …, n − 1` in order with the
identity hash. -/
def tIns : Nat → Table Nat
  | 0 => Table.empty Nat
  | n + 1 =>
    ((emplace idHash (tIns n) n).map (fun r => r.1)).getD (Table.empty Nat)

/-- The table obtained from `tIns 3` by `reserve(100)`. -/
def tRes : Table Nat := (reserve idHash (tIns 3) 100).getD (Table.empty Nat)

/-- The table obtained from `tIns 3` by `erase(1)`. -/
def tDel : Table Nat :=
  ((eraseKey idHash (tIns 3) 1).map (fun r => r.1)).getD (Table.empty Nat)

/-! ### List and arithmetic helpers -/

theorem find?_congr {α} {l : List α} {p q : α → Bool} (h : ∀ x ∈ l, p x = q x) :
    l.find? p = l.find? q := by
  induction l with
  | nil => rfl
  | cons a tl ih =>
    have ha := h a (List.mem_cons_self a tl)
    rw [List.find?_cons, List.find?_cons, ← ha]
    cases hpa : p a
    · exact ih (fun x hx => h x (List.mem_cons_of_mem a hx))
    · rfl

theorem range_find?_eq_some {n : Nat} {p : Nat → Bool} : ∀ {i : Nat},
    (List.range n).find? p = some i ↔
      i < n ∧ p i = true ∧ ∀ j < i, p j = false := by
  induction n with
  | zero => intro i; simp
  | succ n ih =>
    intro i
    rw [List.range_succ, List.find?_append]
    cases hfn : (List.range n).find? p with
    | some j =>
      have hj := ih.mp hfn
      simp only [Option.or_some]
      constructor
      · rintro h
        have hij : j = i := by simpa using h
        subst hij
        exact ⟨Nat.lt_succ_of_lt hj.1, hj.2.1, hj.2.2⟩
      · rintro ⟨hi, hpi, hmin⟩
        by_cases hij : i = j
        · subst hij; rfl
        · rcases Nat.lt_or_ge i j with hlt | hge
          · exact absurd hpi (by simpa using hj.2.2 i hlt)
          · have : j < i := Nat.lt_of_le_of_ne hge (fun h => hij h.symm)
            exact absurd hj.2.1 (by simpa using hmin j this)
    | none =>
      have hnone : ∀ x ∈ List.range n, ¬ p x = true := List.find?_eq_none.mp hfn
      simp only [Option.none_or]
      rw [List.find?_cons]
      cases hpn : p n
      · simp only [List.find?_nil]
        constructor
        · rintro ⟨⟩
        · rintro ⟨hi, hpi, -⟩
          rcases Nat.lt_succ_iff_lt_or_eq.mp hi with h | rfl
          · exact absurd hpi (hnone i (List.mem_range.mpr h))
          · exact absurd hpi (by simp [hpn])
      · constructor
        · rintro h
          have : n = i := by simpa using h
          subst this
          exact ⟨Nat.lt_succ_self n, hpn, fun j hj => by
            have := hnone j (List.mem_range.mpr hj)
            simpa using this⟩
        · rintro ⟨hi, hpi, -⟩
          rcases Nat.lt_succ_iff_lt_or_eq.mp hi with h | rfl
          · exact absurd hpi (hnone i (List.mem_range.mpr h))
          · rfl

theorem range_find?_eq_none {n : Nat} {p : Nat → Bool} :
    (List.range n).find? p = none ↔ ∀ j < n, p j = false := by
  rw [List.find?_eq_none]
  constructor
  · intro h j hj
    simpa using h j (List.mem_range.mpr hj)
  · intro h x hx
    simp [h x (List.mem_range.mp hx)]

theorem countP_congr_eq {l : List Nat} {p q : Nat → Bool}
    (h : ∀ x ∈ l, q x = p x) : l.countP q = l.countP p :=
  List.countP_congr (fun x hx => by rw [h x hx])

theorem countP_update {l : List Nat} {idx : Nat} {p q : Nat → Bool}
    (hnd : l.Nodup) (hmem : idx ∈ l) (hpq : ∀ j, j ≠ idx → q j = p j)
    (hp : p idx = false) (hq : q idx = true) :
    l.countP q = l.countP p + 1 := by
  induction l with
  | nil => cases hmem
  | cons a tl ih =>
    rcases List.mem_cons.mp hmem with rfl | hmem'
    · have htl : ∀ x ∈ tl, q x = p x := fun x hx =>
        hpq x (fun h => (List.nodup_cons.mp hnd).1 (h ▸ hx))
      rw [List.countP_cons, List.countP_cons, countP_congr_eq htl, hq, hp]
      simp
    · have hna : a ≠ idx := fun h => (List.nodup_cons.mp hnd).1 (h ▸ hmem')
      rw [List.countP_cons, List.countP_cons, hpq a hna,
        ih (List.nodup_cons.mp hnd).2 hmem']
      omega

/-- `x &&& (2^m − 1) = x % 2^m`: masking by a power-of-two group count is
reduction modulo the group count. -/
theorem land_mask {m x : Nat} : x &&& (2 ^ m - 1) = x % 2 ^ m :=
  Nat.and_pow_two_sub_one_eq_mod x m

theorem land_mask' {G x : Nat} (h : ∃ m, G = 2 ^ m) : x &&& (G - 1) = x % G := by
  obtain ⟨m, rfl⟩ := h
  exact land_mask

theorem mask_lt {G x : Nat} (h : ∃ m, G = 2 ^ m) : x &&& (G - 1) < G := by
  obtain ⟨m, rfl⟩ := h
  rw [land_mask]
  exact Nat.mod_lt _ (Nat.pos_pow_of_pos m (by omega))

/-- `h2` is a 7-bit value, hence never collides with `Empty`, `Deleted` or
`Sentinel`, and always denotes a full byte. -/
theorem h2_lt (hash : Nat) : h2 hash < 128 := by
  have : h2 hash ≤ 127 := by
    unfold h2
    have := @Nat.and_le_right hash 0x7F
    omega
  omega

theorem isFullByte_h2 (hash : Nat) : isFullByte (h2 hash) = true := by
  simp [isFullByte, h2_lt hash]

/-! ### Pointwise views of the array updates -/

theorem getD_setD {α} (a : Array α) (idx : Nat) (v d : α) (h : idx < a.size)
    (j : Nat) : (a.setD idx v).getD j d = if j = idx then v else a.getD j d := by
  by_cases hj : j = idx
  · subst hj
    rw [if_pos rfl, Array.getD_eq_get?, Array.getElem?_setD_eq a h v]
    rfl
  · rw [if_neg hj, Array.getD_eq_get?, Array.getD_eq_get?]
    congr 1
    unfold Array.setD
    rw [dif_pos h]
    exact Array.getElem?_set_ne _ _ _ (fun h' => hj h'.symm)

theorem ctrlAt_setSlot {t : Table K} {idx h2v : Nat} {v : K}
    (h : idx < t.ctrl.size) (j : Nat) :
    ctrlAt (setSlot t idx h2v v) j = if j = idx then h2v else ctrlAt t j := by
  simp only [ctrlAt, setSlot]
  exact getD_setD _ _ _ _ h j

theorem slotAt_setSlot {t : Table K} {idx h2v : Nat} {v : K}
    (h : idx < t.slots.size) (j : Nat) :
    slotAt (setSlot t idx h2v v) j = if j = idx then some v else slotAt t j := by
  simp only [slotAt, setSlot]
  exact getD_setD _ _ _ _ h j

theorem ctrlAt_relocateSlot {t : Table K} {idx h2v : Nat} {v : K}
    (h : idx < t.ctrl.size) (j : Nat) :
    ctrlAt (relocateSlot t idx h2v v) j = if j = idx then h2v else ctrlAt t j := by
  simp only [ctrlAt, relocateSlot]
  exact getD_setD _ _ _ _ h j

theorem slotAt_relocateSlot {t : Table K} {idx h2v : Nat} {v : K}
    (h : idx < t.slots.size) (j : Nat) :
    slotAt (relocateSlot t idx h2v v) j = if j = idx then some v else slotAt t j := by
  simp only [slotAt, relocateSlot]
  exact getD_setD _ _ _ _ h j

theorem ctrlAt_erase_slot {t : Table K} {off : Nat} (h : off < t.ctrl.size)
    (j : Nat) :
    ctrlAt (erase_slot t off) j =
      if j = off then (if groupAnyEmpty t (off / LANE) then ctrlEmpty else ctrlDeleted)
      else ctrlAt t j := by
  simp only [ctrlAt, erase_slot]
  exact getD_setD _ _ _ _ h j

theorem slotAt_erase_slot {t : Table K} {off : Nat} (h : off < t.slots.size)
    (j : Nat) :
    slotAt (erase_slot t off) j = if j = off then none else slotAt t j := by
  simp only [slotAt, erase_slot]
  exact getD_setD _ _ _ _ h j

theorem getD_freshCtrl (cap j : Nat) :
    (freshCtrl cap).getD j 0 =
      if j < cap then ctrlEmpty else if j = cap then ctrlSentinel else 0 := by
  unfold freshCtrl
  by_cases h : j < cap
  · have hsz : j < ((Array.mkArray cap ctrlEmpty).push ctrlSentinel).size := by
      simp; omega
    rw [if_pos h, Array.getD_eq_get?, Array.getElem?_lt _ hsz,
      Array.getElem_push_lt _ _ _ (by simpa using h)]
    simp
  · by_cases he : j = cap
    · subst he
      have hsz : j < ((Array.mkArray j ctrlEmpty).push ctrlSentinel).size := by simp
      rw [if_neg h, if_pos rfl, Array.getD_eq_get?, Array.getElem?_lt _ hsz]
      have hpe := Array.getElem_push_eq (Array.mkArray j ctrlEmpty) ctrlSentinel
      simp only [Array.size_mkArray] at hpe
      simp [hpe]
    · rw [if_neg h, if_neg he, Array.getD_eq_get?, Array.getElem?_ge]
      · rfl
      · simp; omega

/-! ### Group-primitive lemmas -/

/-- `groupHit` as a single `find?` over the lanes of a group. -/
theorem groupHit_eq_find? (t : Table K) (key : K) (h2v g : Nat) :
    groupHit t key h2v g =
      ((List.range LANE).find? (fun i =>
        (ctrlAt t (g * LANE + i) == h2v) && slotEq t key (g * LANE + i))).map
        (g * LANE + ·) := by
  unfold groupHit groupMatch
  rw [List.find?_filter]
  congr 1
  apply find?_congr
  intro x _
  cases hc : ctrlAt t (g * LANE + x) == h2v <;>
    cases hs : slotEq t key (g * LANE + x) <;> simp [hc, hs]

theorem groupHit_some {t : Table K} {key : K} {h2v g r : Nat}
    (h : groupHit t key h2v g = some r) :
    ∃ i < LANE, r = g * LANE + i ∧ ctrlAt t r = h2v ∧ slotAt t r = some key := by
  rw [groupHit_eq_find?] at h
  rcases Option.map_eq_some'.mp h with ⟨i, hfind, rfl⟩
  obtain ⟨hi, hp, -⟩ := range_find?_eq_some.mp hfind
  rcases Bool.and_eq_true_iff.mp hp with ⟨hc, hs⟩
  refine ⟨i, hi, rfl, by simpa using hc, ?_⟩
  unfold slotEq at hs
  cases hv : slotAt t (g * LANE + i) with
  | none => rw [hv] at hs; cases hs
  | some w =>
    rw [hv] at hs
    have hw : w = key := of_decide_eq_true hs
    rw [hw]

theorem groupHit_none {t : Table K} {key : K} {h2v g : Nat} :
    groupHit t key h2v g = none ↔
      ∀ i < LANE,
        ((ctrlAt t (g * LANE + i) == h2v) && slotEq t key (g * LANE + i)) = false := by
  rw [groupHit_eq_find?, Option.map_eq_none']
  exact range_find?_eq_none

/-- `groupHit` only depends on the control bytes and slots of the group's
lanes. -/
theorem groupHit_ext {t t' : Table K} {key : K} {h2v g : Nat}
    (hc : ∀ i < LANE, ctrlAt t' (g * LANE + i) = ctrlAt t (g * LANE + i))
    (hs : ∀ i < LANE, slotAt t' (g * LANE + i) = slotAt t (g * LANE + i)) :
    groupHit t' key h2v g = groupHit t key h2v g := by
  rw [groupHit_eq_find?, groupHit_eq_find?]
  congr 1
  apply find?_congr
  intro i hi
  have hi' := List.mem_range.mp hi
  rw [hc i hi', slotEq, slotEq, hs i hi']

theorem groupAnyEmpty_ext {t t' : Table K} {g : Nat}
    (hc : ∀ i < LANE, ctrlAt t' (g * LANE + i) = ctrlAt t (g * LANE + i)) :
    groupAnyEmpty t' g = groupAnyEmpty t g := by
  unfold groupAnyEmpty
  apply Bool.eq_iff_iff.mpr
  simp only [List.any_eq_true, List.mem_range]
  constructor
  · rintro ⟨i, hi, hp⟩; exact ⟨i, hi, by rw [← hc i hi]; exact hp⟩
  · rintro ⟨i, hi, hp⟩; exact ⟨i, hi, by rw [hc i hi]; exact hp⟩

theorem groupFirstEmpty_ext {t t' : Table K} {g : Nat}
    (hc : ∀ i < LANE, ctrlAt t' (g * LANE + i) = ctrlAt t (g * LANE + i)) :
    groupFirstEmpty t' g = groupFirstEmpty t g := by
  unfold groupFirstEmpty
  apply find?_congr
  intro i hi
  rw [hc i (List.mem_range.mp hi)]

theorem groupAnyEmpty_false_iff {t : Table K} {g : Nat} :
    groupAnyEmpty t g = false ↔ groupFirstEmpty t g = none := by
  unfold groupAnyEmpty groupFirstEmpty
  rw [range_find?_eq_none, List.any_eq_false]
  constructor
  · intro h j hj
    simpa using h j (List.mem_range.mpr hj)
  · intro h x hx
    simp [h x (List.mem_range.mp hx)]

theorem groupFirstEmpty_some {t : Table K} {g off : Nat}
    (h : groupFirstEmpty t g = some off) :
    off < LANE ∧ ctrlAt t (g * LANE + off) = ctrlEmpty ∧
      ∀ j < off, ctrlAt t (g * LANE + j) ≠ ctrlEmpty := by
  obtain ⟨hlt, hp, hmin⟩ := range_find?_eq_some.mp h
  refine ⟨hlt, by simpa using hp, fun j hj => ?_⟩
  have := hmin j hj
  simpa using this

theorem groupHit_none_of_absent {t : Table K} {key : K} {h2v g : Nat}
    (h : ∀ j, slotAt t j ≠ some key) : groupHit t key h2v g = none := by
  rw [groupHit_none]
  intro i _
  have : slotEq t key (g * LANE + i) = false := by
    unfold slotEq
    cases hv : slotAt t (g * LANE + i) with
    | none => rfl
    | some w =>
      simp only [decide_eq_false_iff_not]
      intro hw
      exact h (g * LANE + i) (by rw [hv, hw])
  simp [this]

theorem visitedG_closed {G : Nat} (hpow : ∃ m, G = 2 ^ m) :
    ∀ f g, g < G → visitedG G f g = (List.range f).map (fun n => (g + n) % G) := by
  intro f
  induction f with
  | zero => intro g _; rfl
  | succ f ih =>
    intro g hg
    have hstep : (g + 1) &&& (G - 1) = (g + 1) % G := land_mask' hpow
    have hstep_lt : (g + 1) % G < G := Nat.mod_lt _ (Nat.lt_of_le_of_lt (Nat.zero_le g) hg)
    rw [List.range_succ_eq_map, List.map_cons, List.map_map]
    show g :: visitedG G f ((g + 1) &&& (G - 1)) = _
    rw [hstep, ih _ hstep_lt]
    congr 1
    · exact (Nat.mod_eq_of_lt hg).symm
    · apply List.map_congr_left
      intro n _
      show ((g + 1) % G + n) % G = (g + Nat.succ n) % G
      rw [Nat.mod_add_mod]
      congr 1
      omega

theorem visitedG_mem_lt {G : Nat} (hpow : ∃ m, G = 2 ^ m) {f g : Nat}
    (hg : g < G) : ∀ x ∈ visitedG G f g, x < G := by
  rw [visitedG_closed hpow f g hg]
  intro x hx
  obtain ⟨n, -, rfl⟩ := List.mem_map.mp hx
  exact Nat.mod_lt _ (Nat.lt_of_le_of_lt (Nat.zero_le g) hg)

theorem visitedG_nodup {G : Nat} (hpow : ∃ m, G = 2 ^ m) {f g : Nat}
    (hf : f ≤ G) (hg : g < G) : (visitedG G f g).Nodup := by
  rw [visitedG_closed hpow f g hg]
  refine (List.nodup_range f).map_on ?_
  intro a ha b hb hab
  have ha' := List.mem_range.mp ha
  have hb' := List.mem_range.mp hb
  rcases Nat.le_total a b with hle | hle
  · have : (g + a) % G = (g + b) % G := hab
    have hmod : (g + a) ≡ (g + b) [MOD G] := this
    have hab' : a ≡ b [MOD G] := Nat.ModEq.add_left_cancel' g hmod
    have hdvd := (Nat.modEq_iff_dvd' hle).mp hab'
    have hlt : b - a < G := by omega
    have : b - a = 0 := Nat.eq_zero_of_dvd_of_lt hdvd hlt
    omega
  · have hmod : (g + a) ≡ (g + b) [MOD G] := hab
    have hab' : b ≡ a [MOD G] := (Nat.ModEq.add_left_cancel' g hmod).symm
    have hdvd := (Nat.modEq_iff_dvd' hle).mp hab'
    have hlt : a - b < G := by omega
    have : a - b = 0 := Nat.eq_zero_of_dvd_of_lt hdvd hlt
    omega

theorem visitedG_full {G : Nat} (hpow : ∃ m, G = 2 ^ m) {g g'' : Nat}
    (hg : g < G) (hg'' : g'' < G) : g'' ∈ visitedG G G g := by
  have hGpos : 0 < G := Nat.lt_of_le_of_lt (Nat.zero_le g) hg
  rw [visitedG_closed hpow G g hg]
  refine List.mem_map.mpr ⟨(g'' + G - g) % G, List.mem_range.mpr (Nat.mod_lt _ hGpos), ?_⟩
  rw [Nat.add_mod_mod]
  have : g + (g'' + G - g) = g'' + G := by omega
  rw [this, Nat.add_mod_right]
  exact Nat.mod_eq_of_lt hg''

/-! ### Correctness and stability of the find loop -/

theorem findLoop_some_correct {t : Table K} {key : K} {h2v : Nat}
    (hpow : ∃ m, t.groups = 2 ^ m) :
    ∀ f g r, g < t.groups → findLoop t key h2v f g = some r → r ≠ t.ctrlLen →
      ∃ g' < t.groups, ∃ i < LANE, r = g' * LANE + i ∧
        ctrlAt t r = h2v ∧ slotAt t r = some key := by
  intro f
  induction f with
  | zero => intro g r _ h _; cases h
  | succ f ih =>
    intro g r hg h hr
    rw [findLoop] at h
    cases hhit : groupHit t key h2v g with
    | some i =>
      rw [hhit] at h
      have hri : i = r := by simpa using h
      subst hri
      obtain ⟨l, hl, hdecomp, hc, hs⟩ := groupHit_some hhit
      exact ⟨g, hg, l, hl, hdecomp, hc, hs⟩
    | none =>
      rw [hhit] at h
      by_cases hae : groupAnyEmpty t g
      · rw [if_pos hae] at h
        have hcl : t.ctrlLen = r := by simpa using h
        exact absurd hcl.symm hr
      · rw [if_neg hae] at h
        exact ih _ _ (mask_lt hpow) h hr

theorem findLoop_stable {t t' : Table K} {key : K} {h2v : Nat}
    (hgroups : t'.groups = t.groups) (hlen : t'.ctrlLen = t.ctrlLen)
    (hpow : ∃ m, t.groups = 2 ^ m)
    (H1 : ∀ g < t.groups, groupHit t' key h2v g = groupHit t key h2v g)
    (H2 : ∀ g < t.groups, groupAnyEmpty t' g = true → groupAnyEmpty t g = true) :
    ∀ f g r, g < t.groups → findLoop t key h2v f g = some r → r ≠ t.ctrlLen →
      findLoop t' key h2v f g = some r := by
  intro f
  induction f with
  | zero => intro g r _ h _; cases h
  | succ f ih =>
    intro g r hg h hr
    rw [findLoop] at h
    rw [findLoop]
    cases hhit : groupHit t key h2v g with
    | some i =>
      rw [hhit] at h
      rw [H1 g hg, hhit]
      exact h
    | none =>
      rw [hhit] at h
      by_cases hae : groupAnyEmpty t g
      · rw [if_pos hae] at h
        have hcl : t.ctrlLen = r := by simpa using h
        exact absurd hcl.symm hr
      · rw [if_neg hae] at h
        rw [H1 g hg, hhit]
        have hae' : groupAnyEmpty t' g = false := by
          cases hv : groupAnyEmpty t' g
          · rfl
          · exact absurd (H2 g hg hv) (by simp [hae])
        rw [if_neg (by simp [hae'])]
        rw [hgroups]
        exact ih _ _ (mask_lt hpow) h hr

theorem findLoop_to_probe {t : Table K} {key : K} {h2v : Nat} :
    ∀ f g r, findLoop t key h2v f g = some r → r ≠ t.ctrlLen →
      emplaceProbe t key h2v f g = some (.dup r) := by
  intro f
  induction f with
  | zero => intro g r h _; cases h
  | succ f ih =>
    intro g r h hr
    rw [findLoop] at h
    rw [emplaceProbe]
    cases hhit : groupHit t key h2v g with
    | some i =>
      rw [hhit] at h
      have : i = r := by simpa using h
      subst this
      rfl
    | none =>
      rw [hhit] at h
      by_cases hae : groupAnyEmpty t g
      · rw [if_pos hae] at h
        have hcl : t.ctrlLen = r := by simpa using h
        exact absurd hcl.symm hr
      · rw [if_neg hae] at h
        rw [groupAnyEmpty_false_iff.mp (by simpa using hae)]
        exact ih _ _ h hr

theorem probe_dup_to_findLoop {t : Table K} {key : K} {h2v : Nat} :
    ∀ f g r, emplaceProbe t key h2v f g = some (.dup r) →
      findLoop t key h2v f g = some r := by
  intro f
  induction f with
  | zero => intro g r h; cases h
  | succ f ih =>
    intro g r h
    rw [emplaceProbe] at h
    rw [findLoop]
    cases hhit : groupHit t key h2v g with
    | some i =>
      rw [hhit] at h
      have : i = r := by simpa using h
      subst this
      rfl
    | none =>
      rw [hhit] at h
      cases hfe : groupFirstEmpty t g with
      | some off => rw [hfe] at h; cases h
      | none =>
        rw [hfe] at h
        have hae : groupAnyEmpty t g = false := groupAnyEmpty_false_iff.mpr hfe
        rw [if_neg (by simp [hae])]
        exact ih _ _ h

/-! ### Location of the probe result -/

theorem emplaceProbe_empty_loc {t : Table K} {v : K} {h2v : Nat} :
    ∀ f g idx, emplaceProbe t v h2v f g = some (.empty idx) →
      ∃ g' ∈ visitedG t.groups f g, ∃ off < LANE,
        idx = g' * LANE + off ∧ groupFirstEmpty t g' = some off := by
  intro f
  induction f with
  | zero => intro g idx h; cases h
  | succ f ih =>
    intro g idx h
    rw [emplaceProbe] at h
    cases hhit : groupHit t v h2v g with
    | some i => rw [hhit] at h; cases h
    | none =>
      rw [hhit] at h
      cases hfe : groupFirstEmpty t g with
      | some off =>
        rw [hfe] at h
        have hidx : g * LANE + off = idx := by simpa using h
        exact ⟨g, List.mem_cons_self _ _, off, (groupFirstEmpty_some hfe).1,
          hidx.symm, hfe⟩
      | none =>
        rw [hfe] at h
        obtain ⟨g', hg', off, hoff, hidx, hfe'⟩ := ih _ _ h
        exact ⟨g', List.mem_cons_of_mem _ hg', off, hoff, hidx, hfe'⟩

theorem emptyLoop_loc {t : Table K} :
    ∀ f g idx, emptyLoop t f g = some idx →
      ∃ g' ∈ visitedG t.groups f g, ∃ off < LANE,
        idx = g' * LANE + off ∧ groupFirstEmpty t g' = some off := by
  intro f
  induction f with
  | zero => intro g idx h; cases h
  | succ f ih =>
    intro g idx h
    rw [emptyLoop] at h
    cases hfe : groupFirstEmpty t g with
    | some off =>
      rw [hfe] at h
      have hidx : g * LANE + off = idx := by simpa using h
      exact ⟨g, List.mem_cons_self _ _, off, (groupFirstEmpty_some hfe).1,
        hidx.symm, hfe⟩
    | none =>
      rw [hfe] at h
      obtain ⟨g', hg', off, hoff, hidx, hfe'⟩ := ih _ _ h
      exact ⟨g', List.mem_cons_of_mem _ hg', off, hoff, hidx, hfe'⟩

/-! ### Placement: the written slot is found afterwards -/

theorem lane_decomp_ne {g g' l l' : Nat} (hne : g ≠ g') (hl : l < LANE)
    (hl' : l' < LANE) : g * LANE + l ≠ g' * LANE + l' := by
  simp only [LANE] at hl hl' ⊢
  omega

theorem groupHit_place {t t' : Table K} {v : K} {h2v g off : Nat}
    (hoff : off < LANE)
    (hc : ∀ j, ctrlAt t' j = if j = g * LANE + off then h2v else ctrlAt t j)
    (hs : ∀ j, slotAt t' j = if j = g * LANE + off then some v else slotAt t j)
    (hnone : groupHit t v h2v g = none) :
    groupHit t' v h2v g = some (g * LANE + off) := by
  rw [groupHit_eq_find?]
  have hold := groupHit_none.mp hnone
  have hpred : ∀ j < off,
      ((ctrlAt t' (g * LANE + j) == h2v) && slotEq t' v (g * LANE + j)) = false := by
    intro j hj
    have hne : g * LANE + j ≠ g * LANE + off := by omega
    have hcj : ctrlAt t' (g * LANE + j) = ctrlAt t (g * LANE + j) := by
      rw [hc, if_neg hne]
    have hsj : slotAt t' (g * LANE + j) = slotAt t (g * LANE + j) := by
      rw [hs, if_neg hne]
    have : slotEq t' v (g * LANE + j) = slotEq t v (g * LANE + j) := by
      unfold slotEq
      rw [hsj]
    rw [hcj, this]
    exact hold j (Nat.lt_trans hj hoff)
  have hoffpred :
      ((ctrlAt t' (g * LANE + off) == h2v) && slotEq t' v (g * LANE + off)) = true := by
    have hcoff : ctrlAt t' (g * LANE + off) = h2v := by rw [hc, if_pos rfl]
    have hsoff : slotAt t' (g * LANE + off) = some v := by rw [hs, if_pos rfl]
    have : slotEq t' v (g * LANE + off) = true := by
      unfold slotEq
      rw [hsoff]
      simp
    rw [hcoff, this]
    simp
  have hfind : (List.range LANE).find? (fun i =>
      (ctrlAt t' (g * LANE + i) == h2v) && slotEq t' v (g * LANE + i)) = some off :=
    range_find?_eq_some.mpr ⟨hoff, hoffpred, hpred⟩
  rw [hfind]
  rfl

theorem probe_empty_place_find {t t' : Table K} {v : K} {h2v idx : Nat}
    (hgroups : t'.groups = t.groups) (hpow : ∃ m, t.groups = 2 ^ m)
    (hc : ∀ j, ctrlAt t' j = if j = idx then h2v else ctrlAt t j)
    (hs : ∀ j, slotAt t' j = if j = idx then some v else slotAt t j) :
    ∀ f g, f ≤ t.groups → g < t.groups →
      emplaceProbe t v h2v f g = some (.empty idx) →
      findLoop t' v h2v f g = some idx := by
  intro f
  induction f with
  | zero => intro g _ _ h; cases h
  | succ f ih =>
    intro g hf hg h
    rw [emplaceProbe] at h
    rw [findLoop]
    cases hhit : groupHit t v h2v g with
    | some i => rw [hhit] at h; cases h
    | none =>
      rw [hhit] at h
      cases hfe : groupFirstEmpty t g with
      | some off =>
        rw [hfe] at h
        have hidx : g * LANE + off = idx := by simpa using h
        have hoff := (groupFirstEmpty_some hfe).1
        subst hidx
        rw [groupHit_place hoff hc hs hhit]
      | none =>
        rw [hfe] at h
        obtain ⟨g'', hg''mem, off'', hoff'', hidx, -⟩ := emplaceProbe_empty_loc _ _ _ h
        have hnd : (visitedG t.groups (f + 1) g).Nodup := visitedG_nodup hpow hf hg
        have hgne : g ≠ g'' := by
          intro hEq
          have hcons : (g :: visitedG t.groups f ((g + 1) &&& (t.groups - 1))).Nodup := hnd
          exact (List.nodup_cons.mp hcons).1 (hEq ▸ hg''mem)
        have hlane : ∀ l < LANE, g * LANE + l ≠ idx := by
          intro l hl
          rw [hidx]
          exact lane_decomp_ne hgne hl hoff''
        have hext_c : ∀ i < LANE, ctrlAt t' (g * LANE + i) = ctrlAt t (g * LANE + i) := by
          intro i hi
          rw [hc, if_neg (hlane i hi)]
        have hext_s : ∀ i < LANE, slotAt t' (g * LANE + i) = slotAt t (g * LANE + i) := by
          intro i hi
          rw [hs, if_neg (hlane i hi)]
        rw [groupHit_ext hext_c hext_s, hhit]
        have hae : groupAnyEmpty t g = false := groupAnyEmpty_false_iff.mpr hfe
        have hae' : groupAnyEmpty t' g = false := by
          rw [groupAnyEmpty_ext hext_c]
          exact hae
        rw [if_neg (by simp [hae']), hgroups]
        exact ih _ (Nat.le_of_succ_le hf) (mask_lt hpow) h

theorem emptyLoop_place_find {t t' : Table K} {v : K} {h2v idx : Nat}
    (hgroups : t'.groups = t.groups) (hpow : ∃ m, t.groups = 2 ^ m)
    (hc : ∀ j, ctrlAt t' j = if j = idx then h2v else ctrlAt t j)
    (hs : ∀ j, slotAt t' j = if j = idx then some v else slotAt t j)
    (habs : ∀ j, slotAt t j ≠ some v) :
    ∀ f g, f ≤ t.groups → g < t.groups → emptyLoop t f g = some idx →
      findLoop t' v h2v f g = some idx := by
  intro f
  induction f with
  | zero => intro g _ _ h; cases h
  | succ f ih =>
    intro g hf hg h
    rw [emptyLoop] at h
    rw [findLoop]
    have hhit : groupHit t v h2v g = none := groupHit_none_of_absent habs
    cases hfe : groupFirstEmpty t g with
    | some off =>
      rw [hfe] at h
      have hidx : g * LANE + off = idx := by simpa using h
      have hoff := (groupFirstEmpty_some hfe).1
      subst hidx
      rw [groupHit_place hoff hc hs hhit]
    | none =>
      rw [hfe] at h
      obtain ⟨g'', hg''mem, off'', hoff'', hidx, -⟩ := emptyLoop_loc _ _ _ h
      have hnd : (visitedG t.groups (f + 1) g).Nodup := visitedG_nodup hpow hf hg
      have hgne : g ≠ g'' := by
        intro hEq
        have hcons : (g :: visitedG t.groups f ((g + 1) &&& (t.groups - 1))).Nodup := hnd
        exact (List.nodup_cons.mp hcons).1 (hEq ▸ hg''mem)
      have hlane : ∀ l < LANE, g * LANE + l ≠ idx := by
        intro l hl
        rw [hidx]
        exact lane_decomp_ne hgne hl hoff''
      have hext_c : ∀ i < LANE, ctrlAt t' (g * LANE + i) = ctrlAt t (g * LANE + i) := by
        intro i hi
        rw [hc, if_neg (hlane i hi)]
      have hext_s : ∀ i < LANE, slotAt t' (g * LANE + i) = slotAt t (g * LANE + i) := by
        intro i hi
        rw [hs, if_neg (hlane i hi)]
      rw [groupHit_ext hext_c hext_s, hhit]
      have hae : groupAnyEmpty t g = false := groupAnyEmpty_false_iff.mpr hfe
      have hae' : groupAnyEmpty t' g = false := by
        rw [groupAnyEmpty_ext hext_c]
        exact hae
      rw [if_neg (by simp [hae']), hgroups]
      exact ih _ (Nat.le_of_succ_le hf) (mask_lt hpow) h

/-! ### Totality of the relocation probe -/

theorem emptyLoop_none_all {t : Table K} :
    ∀ f g, emptyLoop t f g = none →
      ∀ x ∈ visitedG t.groups f g, groupFirstEmpty t x = none := by
  intro f
  induction f with
  | zero => intro g _ x hx; cases hx
  | succ f ih =>
    intro g h x hx
    rw [emptyLoop] at h
    cases hfe : groupFirstEmpty t g with
    | some off => rw [hfe] at h; cases h
    | none =>
      rw [hfe] at h
      rcases List.mem_cons.mp hx with rfl | hx'
      · exact hfe
      · exact ih _ h x hx'

theorem emptyLoop_isSome {t : Table K} (hpow : ∃ m, t.groups = 2 ^ m) {g : Nat}
    (hg : g < t.groups)
    (hex : ∃ g' < t.groups, groupAnyEmpty t g' = true) :
    (emptyLoop t t.groups g).isSome := by
  obtain ⟨g', hg', hae⟩ := hex
  cases hres : emptyLoop t t.groups g with
  | some idx => rfl
  | none =>
    have hall := emptyLoop_none_all _ _ hres
    have hmem := visitedG_full hpow hg hg'
    have := groupAnyEmpty_false_iff.mpr (hall g' hmem)
    rw [hae] at this
    cases this

theorem slotAt_some_lt {t : Table K} {j : Nat} {w : K}
    (h : slotAt t j = some w) : j < t.slots.size := by
  by_contra hge
  unfold slotAt at h
  rw [Array.getD_eq_get?, Array.getElem?_ge _ (Nat.le_of_not_lt hge)] at h
  cases h

theorem getD_mkArray_none {n j : Nat} :
    (Array.mkArray n (none : Option K)).getD j none = none := by
  rw [Array.getD_eq_get?]
  by_cases h : j < n
  · rw [Array.getElem?_lt _ (by simpa using h)]
    simp
  · rw [Array.getElem?_ge _ (by simpa using Nat.le_of_not_lt h)]
    rfl

theorem fullCount_eq_length_liveIdx (t : Table K) :
    fullCount t = (liveIdx t).length := by
  unfold fullCount liveIdx
  rw [List.countP_eq_length_filter]

/-- The group-by-group walk of `rehashImpl` over the old table lists exactly
the slots at the full indices, in index order. -/
theorem oldLiveSlots_eq (t : Table K) (hlen : t.ctrlLen = LANE * t.groups) :
    oldLiveSlots t =
      ((List.range t.ctrlLen).filter (fun i => isFullByte (ctrlAt t i))).map
        (slotAt t) := by
  unfold oldLiveSlots groupFullLanes
  rw [hlen, Nat.mul_comm]
  induction t.groups with
  | zero => rfl
  | succ G ih =>
    rw [List.range_succ, List.flatMap_append, ih]
    have hrange : List.range ((G + 1) * LANE) =
        List.range (G * LANE) ++ (List.range LANE).map (G * LANE + ·) := by
      rw [Nat.succ_mul]
      exact List.range_add _ _
    rw [hrange, List.filter_append, List.map_append]
    congr 1
    simp only [List.flatMap_cons, List.flatMap_nil, List.append_nil]
    rw [List.filter_map, List.map_map]
    rfl

theorem nodup_filterMap {l : List Nat} {f : Nat → Option K}
    (hnd : l.Nodup)
    (hinj : ∀ i ∈ l, ∀ j ∈ l, ∀ v, f i = some v → f j = some v → i = j) :
    (l.filterMap f).Nodup := by
  induction l with
  | nil => exact List.nodup_nil
  | cons a tl ih =>
    have hnda := List.nodup_cons.mp hnd
    have ihtl := ih hnda.2 (fun i hi j hj v hfi hfj =>
      hinj i (List.mem_cons_of_mem a hi) j (List.mem_cons_of_mem a hj) v hfi hfj)
    cases hfa : f a with
    | none => simpa [List.filterMap_cons, hfa] using ihtl
    | some v =>
      rw [List.filterMap_cons, hfa]
      refine List.nodup_cons.mpr ⟨?_, ihtl⟩
      intro hv
      obtain ⟨b, hb, hfb⟩ := List.mem_filterMap.mp hv
      have hab : a = b := hinj a (List.mem_cons_self a tl) b
        (List.mem_cons_of_mem a hb) v hfa hfb
      exact hnda.1 (hab ▸ hb)

theorem map_eq_map_some {l : List Nat} {f : Nat → Option K}
    (h : ∀ i ∈ l, (f i).isSome) :
    l.map f = (l.filterMap f).map some ∧ (l.filterMap f).length = l.length := by
  induction l with
  | nil => exact ⟨rfl, rfl⟩
  | cons a tl ih =>
    have ha := h a (List.mem_cons_self a tl)
    obtain ⟨v, hv⟩ := Option.isSome_iff_exists.mp ha
    have ihtl := ih (fun i hi => h i (List.mem_cons_of_mem a hi))
    constructor
    · rw [List.map_cons, List.filterMap_cons, hv, List.map_cons, ihtl.1]
    · rw [List.filterMap_cons, hv, List.length_cons, List.length_cons, ihtl.2]

/-- Under the invariant, two live slots with the same element coincide. -/
theorem reach_unique {hashF : K → Nat} {t : Table K}
    (hreach : ReachOk hashF t) {i j : Nat} {v : K}
    (hi : i < t.capacity) (hj : j < t.capacity)
    (hvi : slotAt t i = some v) (hvj : slotAt t j = some v) : i = j := by
  have h1 := hreach i hi v (by rw [hvi]; rfl)
  have h2 := hreach j hj v (by rw [hvj]; rfl)
  rw [h1] at h2
  exact Option.some_inj.mp h2

/-- Extraction of the live values walked by `rehashImpl`, with their
uniqueness and counting properties. -/
theorem oldLive_extract {hashF : K → Nat} {t : Table K} (hgeom : Geom t)
    (hsent : SentinelOk t) (hslots : SlotsOk t) (hreach : ReachOk hashF t) :
    ∃ xs : List K, oldLiveSlots t = xs.map some ∧ xs.Nodup ∧
      xs.length = fullCount t ∧
      (∀ v, v ∈ xs ↔ ∃ i < t.capacity, slotAt t i = some v) := by
  obtain ⟨hpow, hlen, hcap, hctrlsz, hslotsz⟩ := hgeom
  have hfull : (List.range t.ctrlLen).filter (fun i => isFullByte (ctrlAt t i)) =
      liveIdx t := by
    unfold liveIdx
    have : t.ctrlLen = t.capacity + 1 := hcap.symm
    rw [this, List.range_succ, List.filter_append]
    have hone : List.filter (fun i => isFullByte (ctrlAt t i)) [t.capacity] = [] := by
      simp [List.filter_cons, hsent.1, isFullByte, ctrlSentinel]
    rw [hone, List.append_nil]
  have hsome : ∀ i ∈ liveIdx t, (slotAt t i).isSome := by
    intro i hi
    obtain ⟨hir, hif⟩ := List.mem_filter.mp hi
    have hiff := (hslots.1 i (List.mem_range.mp hir)).symm
    rw [hiff]
    exact hif
  refine ⟨(liveIdx t).filterMap (slotAt t), ?_, ?_, ?_, ?_⟩
  · rw [oldLiveSlots_eq t hlen, hfull]
    exact (map_eq_map_some hsome).1
  · refine nodup_filterMap (List.Nodup.filter _ (List.nodup_range _)) ?_
    intro i hi j hj v hfi hfj
    have hi' := List.mem_range.mp (List.mem_filter.mp hi).1
    have hj' := List.mem_range.mp (List.mem_filter.mp hj).1
    exact reach_unique hreach hi' hj' hfi hfj
  · rw [(map_eq_map_some hsome).2, fullCount_eq_length_liveIdx]
  · intro v
    rw [List.mem_filterMap]
    constructor
    · rintro ⟨i, hi, hfi⟩
      exact ⟨i, List.mem_range.mp (List.mem_filter.mp hi).1, hfi⟩
    · rintro ⟨i, hi, hfi⟩
      refine ⟨i, List.mem_filter.mpr ⟨List.mem_range.mpr hi, ?_⟩, hfi⟩
      show isFullByte (ctrlAt t i) = true
      rw [hslots.1 i hi, hfi]
      rfl

/-! ### The rehash relocation invariant -/

theorem groupHit_ext_pred {t t' : Table K} {key : K} {h2v g : Nat}
    (h : ∀ i < LANE,
      ((ctrlAt t' (g * LANE + i) == h2v) && slotEq t' key (g * LANE + i)) =
        ((ctrlAt t (g * LANE + i) == h2v) && slotEq t key (g * LANE + i))) :
    groupHit t' key h2v g = groupHit t key h2v g := by
  rw [groupHit_eq_find?, groupHit_eq_find?]
  congr 1
  apply find?_congr
  intro i hi
  exact h i (List.mem_range.mp hi)

theorem groupAnyEmpty_shrink {t t' : Table K} {idx h2v : Nat}
    (hc : ∀ j, ctrlAt t' j = if j = idx then h2v else ctrlAt t j)
    (hfull : h2v < 128) (g : Nat) :
    groupAnyEmpty t' g = true → groupAnyEmpty t g = true := by
  intro h
  unfold groupAnyEmpty at h ⊢
  rw [List.any_eq_true] at h ⊢
  obtain ⟨i, hi, hp⟩ := h
  refine ⟨i, hi, ?_⟩
  by_cases ha : g * LANE + i = idx
  · exfalso
    have h1' : ctrlAt t' (g * LANE + i) = h2v := by rw [hc, if_pos ha]
    rw [h1'] at hp
    have heq : h2v = ctrlEmpty := by simpa using hp
    rw [heq] at hfull
    simp [ctrlEmpty] at hfull
  · have h1' : ctrlAt t' (g * LANE + i) = ctrlAt t (g * LANE + i) := by
      rw [hc, if_neg ha]
    rw [h1'] at hp
    exact hp

theorem buildOk_base (hashF : K → Nat) (sz ngc : Nat) (hpos : 0 < ngc)
    (hpow : ∃ m, ngc = 2 ^ m) :
    BuildOk hashF
      (⟨sz, LANE * ngc - 1, LANE * ngc, ngc, freshCtrl (LANE * ngc - 1),
        Array.mkArray (LANE * ngc - 1) none⟩ : Table K) [] := by
  have hL : 1 ≤ LANE * ngc := by
    have : 1 * 1 ≤ LANE * ngc := Nat.mul_le_mul (by simp [LANE]) hpos
    omega
  set nt : Table K :=
    ⟨sz, LANE * ngc - 1, LANE * ngc, ngc, freshCtrl (LANE * ngc - 1),
      Array.mkArray (LANE * ngc - 1) none⟩ with hnt
  have hctrl : ∀ j, ctrlAt nt j =
      if j < LANE * ngc - 1 then ctrlEmpty
      else if j = LANE * ngc - 1 then ctrlSentinel else 0 :=
    fun j => getD_freshCtrl _ j
  have hslot : ∀ j, slotAt nt j = none := fun j => getD_mkArray_none
  refine ⟨hpow, rfl, ?_, ?_, ?_, ?_, ?_, ?_, ?_, ?_, ?_⟩
  · show LANE * ngc - 1 + 1 = LANE * ngc
    omega
  · show (freshCtrl (LANE * ngc - 1)).size = LANE * ngc
    simp [freshCtrl]
    omega
  · show (Array.mkArray (LANE * ngc - 1) (none : Option K)).size = LANE * ngc - 1
    simp
  · show ctrlAt nt (LANE * ngc - 1) = ctrlSentinel
    rw [hctrl]
    simp
  · intro i hi
    right
    rw [hctrl, if_pos hi]
  · intro i hi
    rw [hctrl, if_pos hi, hslot]
    rfl
  · show fullCount nt = 0
    unfold fullCount
    rw [List.countP_eq_zero]
    intro i hi
    show ¬ isFullByte (ctrlAt nt i) = true
    rw [hctrl, if_pos (List.mem_range.mp hi)]
    simp [isFullByte, ctrlEmpty]
  · intro v
    constructor
    · rintro ⟨i, -, hv⟩
      rw [hslot] at hv
      cases hv
    · rintro ⟨⟩
  · intro i _ v hv
    rw [hslot] at hv
    cases hv

theorem beq_false_of_ne {a b : Nat} (h : a ≠ b) : (a == b) = false := by
  rw [beq_eq_false_iff_ne]
  exact h

theorem buildOk_insert {hashF : K → Nat} {nt : Table K} {placed : List K} {v : K}
    (hb : BuildOk hashF nt placed)
    (hnotin : ∀ i, slotAt nt i ≠ some v)
    (hroom : placed.length < nt.capacity) :
    ∃ nt', insertUnchecked hashF nt (some v) = some nt' ∧
      BuildOk hashF nt' (placed ++ [v]) ∧ nt'.size = nt.size ∧
      nt'.groups = nt.groups ∧ nt'.capacity = nt.capacity ∧
      nt'.ctrlLen = nt.ctrlLen := by
  obtain ⟨hpow, hlen, hcap, hcsz, hssz, hsent, hdisc, hiff, hcount, hmem, hreach⟩ := hb
  have hlen16 : nt.ctrlLen = 16 * nt.groups := by simpa [LANE] using hlen
  have hL16 : 0 < LANE := by simp [LANE]
  -- an Empty byte exists somewhere below capacity
  have hex : ∃ ie, ie < nt.capacity ∧ ctrlAt nt ie = ctrlEmpty := by
    by_contra hall
    push_neg at hall
    have hfullall : ∀ a ∈ List.range nt.capacity,
        (fun i => isFullByte (ctrlAt nt i)) a = true := by
      intro a ha
      have ha' := List.mem_range.mp ha
      rcases hdisc a ha' with hfull | hempty
      · exact hfull
      · exact absurd hempty (hall a ha')
    have hfc : fullCount nt = nt.capacity := by
      unfold fullCount
      rw [List.countP_eq_length.mpr hfullall, List.length_range]
    omega
  obtain ⟨ie, hie, hieE⟩ := hex
  have hgi : ie / LANE < nt.groups := by
    rw [Nat.div_lt_iff_lt_mul hL16]
    show ie < nt.groups * LANE
    simp only [LANE]
    omega
  have haeg : groupAnyEmpty nt (ie / LANE) = true := by
    unfold groupAnyEmpty
    rw [List.any_eq_true]
    refine ⟨ie % LANE, List.mem_range.mpr (Nat.mod_lt _ hL16), ?_⟩
    have hsplit : ie / LANE * LANE + ie % LANE = ie := by
      rw [Nat.mul_comm]
      exact Nat.div_add_mod ie LANE
    rw [hsplit, hieE]
    simp
  have hg0 : h1 (hashF v) &&& (nt.groups - 1) < nt.groups := mask_lt hpow
  have hsome := emptyLoop_isSome hpow hg0 ⟨ie / LANE, hgi, haeg⟩
  obtain ⟨idx, hidx⟩ := Option.isSome_iff_exists.mp hsome
  obtain ⟨g', hg'mem, off, hoff, hidxeq, hfe'⟩ := emptyLoop_loc _ _ _ hidx
  have hg' : g' < nt.groups := visitedG_mem_lt hpow hg0 _ hg'mem
  have hidxE : ctrlAt nt idx = ctrlEmpty := by
    rw [hidxeq]
    exact (groupFirstEmpty_some hfe').2.1
  have hidxlt : idx < nt.ctrlLen := by
    rw [hlen16, hidxeq]
    simp only [LANE] at hoff ⊢
    omega
  have hidxne : idx ≠ nt.capacity := by
    intro h
    rw [h, hsent] at hidxE
    exact absurd hidxE (by decide)
  have hidxcap : idx < nt.capacity := by omega
  have hslotidx : slotAt nt idx = none := by
    have hif := hiff idx hidxcap
    rw [hidxE] at hif
    cases hv : slotAt nt idx with
    | none => rfl
    | some w =>
      rw [hv] at hif
      exact absurd hif.symm (by simp [isFullByte, ctrlEmpty])
  have hc : ∀ j, ctrlAt (relocateSlot nt idx (h2 (hashF v)) v) j =
      if j = idx then h2 (hashF v) else ctrlAt nt j :=
    fun j => ctrlAt_relocateSlot (by omega) j
  have hs : ∀ j, slotAt (relocateSlot nt idx (h2 (hashF v)) v) j =
      if j = idx then some v else slotAt nt j :=
    fun j => slotAt_relocateSlot (by omega) j
  refine ⟨relocateSlot nt idx (h2 (hashF v)) v, by simp [insertUnchecked, hidx],
    ?_, rfl, rfl, rfl, rfl⟩
  have hH1 : ∀ (w : K), w ≠ v → ∀ g,
      groupHit (relocateSlot nt idx (h2 (hashF v)) v) w (h2 (hashF w)) g =
        groupHit nt w (h2 (hashF w)) g := by
    intro w hwv g
    apply groupHit_ext_pred
    intro l hl
    by_cases ha : g * LANE + l = idx
    · have hcl : ctrlAt (relocateSlot nt idx (h2 (hashF v)) v) (g * LANE + l) =
          h2 (hashF v) := by rw [hc, if_pos ha]
      have hsl : slotAt (relocateSlot nt idx (h2 (hashF v)) v) (g * LANE + l) =
          some v := by rw [hs, if_pos ha]
      have hse : slotEq (relocateSlot nt idx (h2 (hashF v)) v) w (g * LANE + l)
          = false := by
        unfold slotEq
        rw [hsl]
        have hvw : v ≠ w := fun h => hwv h.symm
        simp [hvw]
      have hco : ctrlAt nt (g * LANE + l) = ctrlEmpty := ha ▸ hidxE
      have hbeq : (ctrlAt nt (g * LANE + l) == h2 (hashF w)) = false := by
        rw [hco]
        exact beq_false_of_ne (by have := h2_lt (hashF w); simp [ctrlEmpty]; omega)
      rw [hse, hbeq]
      simp
    · have hcl : ctrlAt (relocateSlot nt idx (h2 (hashF v)) v) (g * LANE + l) =
          ctrlAt nt (g * LANE + l) := by rw [hc, if_neg ha]
      have hsl : slotAt (relocateSlot nt idx (h2 (hashF v)) v) (g * LANE + l) =
          slotAt nt (g * LANE + l) := by rw [hs, if_neg ha]
      rw [hcl]
      unfold slotEq
      rw [hsl]
  have hH2 := groupAnyEmpty_shrink hc (h2_lt (hashF v))
  refine ⟨hpow, hlen, hcap, ?_, ?_, ?_, ?_, ?_, ?_, ?_, ?_⟩
  · show (nt.ctrl.setD idx (h2 (hashF v))).size = nt.ctrlLen
    simp [hcsz]
  · show (nt.slots.setD idx (some v)).size = nt.capacity
    simp [hssz]
  · show ctrlAt (relocateSlot nt idx (h2 (hashF v)) v) nt.capacity = ctrlSentinel
    rw [hc, if_neg (by omega)]
    exact hsent
  · intro i hi
    rw [hc]
    by_cases ha : i = idx
    · rw [if_pos ha]
      left
      exact isFullByte_h2 _
    · rw [if_neg ha]
      exact hdisc i hi
  · intro i hi
    rw [hc, hs]
    by_cases ha : i = idx
    · rw [if_pos ha, if_pos ha]
      simp [isFullByte_h2]
    · rw [if_neg ha, if_neg ha]
      exact hiff i hi
  · show fullCount (relocateSlot nt idx (h2 (hashF v)) v) = (placed ++ [v]).length
    unfold fullCount
    show List.countP
        (fun i => isFullByte (ctrlAt (relocateSlot nt idx (h2 (hashF v)) v) i))
        (List.range nt.capacity) = (placed ++ [v]).length
    have hupd := @countP_update (List.range nt.capacity) idx
      (fun i => isFullByte (ctrlAt nt i))
      (fun i => isFullByte (ctrlAt (relocateSlot nt idx (h2 (hashF v)) v) i))
      (List.nodup_range _) (List.mem_range.mpr hidxcap)
      (fun j hj => by simp only; rw [hc, if_neg hj])
      (by simp only; rw [hidxE]; simp [isFullByte, ctrlEmpty])
      (by simp only; rw [hc, if_pos rfl]; exact isFullByte_h2 _)
    rw [hupd]
    unfold fullCount at hcount
    rw [hcount]
    simp
  · intro w
    constructor
    · rintro ⟨i, hi, hw⟩
      rw [hs] at hw
      by_cases ha : i = idx
      · rw [if_pos ha] at hw
        have : v = w := Option.some_inj.mp hw
        subst this
        simp
      · rw [if_neg ha] at hw
        have := (hmem w).mp ⟨i, hi, hw⟩
        simp [this]
    · intro hw
      rcases List.mem_append.mp hw with hp | hv
      · obtain ⟨i, hi, hw'⟩ := (hmem w).mpr hp
        have ha : i ≠ idx := by
          intro h
          rw [h, hslotidx] at hw'
          cases hw'
        exact ⟨i, hi, by rw [hs, if_neg ha]; exact hw'⟩
      · have : w = v := by simpa using hv
        subst this
        exact ⟨idx, hidxcap, by rw [hs, if_pos rfl]⟩
  · intro i hi w hw
    have hi' : i < nt.capacity := hi
    rw [hs] at hw
    by_cases ha : i = idx
    · subst ha
      rw [if_pos rfl] at hw
      have hwv : v = w := by simpa using hw
      subst hwv
      exact @emptyLoop_place_find K _ nt (relocateSlot nt i (h2 (hashF v)) v) v
        (h2 (hashF v)) i rfl hpow hc hs hnotin nt.groups _
        (Nat.le_refl _) hg0 hidx
    · rw [if_neg ha] at hw
      have hw' : slotAt nt i = some w := hw
      have hwv : w ≠ v := by
        intro h
        exact hnotin i (h ▸ hw')
      have hr := hreach i hi w (by rw [hw']; rfl)
      exact @findLoop_stable K _ nt (relocateSlot nt idx (h2 (hashF v)) v) w
        (h2 (hashF w)) rfl rfl hpow
        (fun g _ => hH1 w hwv g) (fun g _ => hH2 g) nt.groups _ i
        (mask_lt hpow) hr (by omega)

theorem geom_pow {t : Table K} (h : Geom t) : ∃ m, t.groups = 2 ^ m := by
  obtain ⟨⟨m, -, hm⟩, -⟩ := h
  exact ⟨m, hm⟩

theorem pow_bounded {G m : Nat} (h : G = 2 ^ m) : ∃ m' < G + 1, G = 2 ^ m' := by
  refine ⟨m, ?_, h⟩
  have := Nat.lt_two_pow m
  omega

theorem isFullByte_ne_deleted {c : Nat} (h : isFullByte c = true) :
    c ≠ ctrlDeleted := by
  unfold isFullByte at h
  have : c < 128 := by simpa using h
  simp [ctrlDeleted]
  omega

theorem isFullByte_ne_sentinel {c : Nat} (h : isFullByte c = true) :
    c ≠ ctrlSentinel := by
  unfold isFullByte at h
  have : c < 128 := by simpa using h
  simp [ctrlSentinel]
  omega

theorem buildOk_fold {hashF : K → Nat} :
    ∀ (l : List K) (nt : Table K) (placed : List K),
      BuildOk hashF nt placed → l.Nodup →
      (∀ w ∈ l, w ∉ placed) →
      placed.length + l.length ≤ nt.capacity →
      ∃ nt', (l.map some).foldlM (insertUnchecked hashF) nt = some nt' ∧
        BuildOk hashF nt' (placed ++ l) ∧ nt'.size = nt.size ∧
        nt'.groups = nt.groups ∧ nt'.capacity = nt.capacity ∧
        nt'.ctrlLen = nt.ctrlLen := by
  intro l
  induction l with
  | nil =>
    intro nt placed hb _ _ _
    exact ⟨nt, rfl, by simpa using hb, rfl, rfl, rfl, rfl⟩
  | cons v tl ih =>
    intro nt placed hb hnd hdisj hroom
    have hssz : nt.slots.size = nt.capacity := hb.2.2.2.2.1
    have hmem := hb.2.2.2.2.2.2.2.2.2.1
    have hnotin : ∀ i, slotAt nt i ≠ some v := by
      intro i hv
      have hilt : i < nt.slots.size := slotAt_some_lt hv
      have hic : i < nt.capacity := by omega
      have : v ∈ placed := (hmem v).mp ⟨i, hic, hv⟩
      exact hdisj v (List.mem_cons_self v tl) this
    have hroom1 : placed.length < nt.capacity := by
      have := List.length_cons v tl
      omega
    obtain ⟨nt1, hins, hb1, hsz1, hg1, hc1, hl1⟩ := buildOk_insert hb hnotin hroom1
    have hdisj' : ∀ w ∈ tl, w ∉ placed ++ [v] := by
      intro w hw hmem'
      rcases List.mem_append.mp hmem' with hp | hv'
      · exact hdisj w (List.mem_cons_of_mem v hw) hp
      · have : w = v := by simpa using hv'
        subst this
        exact (List.nodup_cons.mp hnd).1 hw
    have hroom' : (placed ++ [v]).length + tl.length ≤ nt1.capacity := by
      rw [hc1]
      have h1 : (placed ++ [v]).length = placed.length + 1 := by simp
      have h2 := List.length_cons v tl
      omega
    obtain ⟨nt', hfold, hb', hsz', hg', hc', hl'⟩ :=
      ih nt1 (placed ++ [v]) hb1 (List.nodup_cons.mp hnd).2 hdisj' hroom'
    refine ⟨nt', ?_, ?_, by omega, by rw [hg', hg1], by rw [hc', hc1],
      by rw [hl', hl1]⟩
    · rw [List.map_cons, List.foldlM_cons, hins]
      exact hfold
    · have : placed ++ [v] ++ tl = placed ++ v :: tl := by simp
      rw [← this]
      exact hb'

theorem rehashImpl_spec {hashF : K → Nat} {t : Table K} {ngc : Nat}
    (hwf : WF hashF t) (hpow : ∃ m, ngc = 2 ^ m) (hpos : 0 < ngc)
    (hsz : t.size ≤ LANE * ngc - 1) :
    ∃ t', rehashImpl hashF t ngc = some t' ∧ WF hashF t' ∧
      t'.groups = ngc ∧ t'.capacity = LANE * ngc - 1 ∧
      t'.ctrlLen = LANE * ngc ∧ t'.size = t.size ∧
      (∀ v : K, (∃ i < t'.capacity, slotAt t' i = some v) ↔
        (∃ i < t.capacity, slotAt t i = some v)) ∧
      (∀ j < t'.capacity, ctrlAt t' j ≠ ctrlDeleted) := by
  obtain ⟨m, hm⟩ := hpow
  -- the live elements of the old table
  have hxs : ∃ xs : List K, oldLiveSlots t = xs.map some ∧ xs.Nodup ∧
      xs.length = t.size ∧
      (∀ v, v ∈ xs ↔ ∃ i < t.capacity, slotAt t i = some v) := by
    rcases hwf with hempty | ⟨hgeom, hsent, hslots, hcount, hreach⟩
    · refine ⟨[], ?_, List.nodup_nil, ?_, ?_⟩
      · rw [hempty]; rfl
      · rw [hempty]; rfl
      · intro v
        rw [hempty]
        constructor
        · rintro ⟨⟩
        · rintro ⟨i, -, hv⟩
          unfold slotAt Table.empty at hv
          simp at hv
    · obtain ⟨xs, h1, h2, h3, h4⟩ := oldLive_extract hgeom hsent hslots hreach
      exact ⟨xs, h1, h2, by rw [h3, ← hcount], h4⟩
  obtain ⟨xs, hxs1, hxs2, hxs3, hxs4⟩ := hxs
  have hbase := buildOk_base hashF t.size ngc hpos ⟨m, hm⟩
  have hroom : ([] : List K).length + xs.length ≤ LANE * ngc - 1 := by
    simp only [List.length_nil]
    omega
  obtain ⟨nt', hfold, hb', hsz', hg', hc', hl'⟩ :=
    buildOk_fold xs _ [] hbase hxs2 (by intro w _ h; cases h) hroom
  have hfold' : (oldLiveSlots t).foldlM (insertUnchecked hashF)
      (⟨t.size, LANE * ngc - 1, LANE * ngc, ngc, freshCtrl (LANE * ngc - 1),
        Array.mkArray (LANE * ngc - 1) none⟩ : Table K) = some nt' := by
    rw [hxs1]
    exact hfold
  obtain ⟨hpow', hlen', hcap', hcsz', hssz', hsent', hdisc', hiff', hcount',
    hmem', hreach'⟩ := hb'
  have hszeq : nt'.size = t.size := hsz'
  have hcounteq : fullCount nt' = xs.length := by
    rw [hcount']
    simp
  refine ⟨nt', hfold', ?_, by rw [hg'], by rw [hc'], by rw [hl'], hszeq, ?_, ?_⟩
  · -- WF nt'
    right
    refine ⟨⟨?_, hlen', hcap', hcsz', hssz'⟩, ⟨hsent', ?_⟩, ⟨hiff', ?_⟩, ?_, ?_⟩
    · obtain ⟨m', hm'⟩ := hpow'
      exact pow_bounded hm'
    · intro i hi
      rcases hdisc' i hi with hfull | hempty
      · exact isFullByte_ne_sentinel hfull
      · rw [hempty]
        decide
    · intro i hi
      rcases hdisc' i hi with hfull | hempty
      · left; exact hfull
      · right; left; exact hempty
    · rw [hszeq, ← hxs3, ← hcounteq]
    · intro i hi v hv
      have hfl := hreach' i hi v hv
      have hlive : 0 < fullCount nt' := by
        unfold fullCount
        rw [List.countP_pos_iff]
        refine ⟨i, List.mem_range.mpr hi, ?_⟩
        show isFullByte (ctrlAt nt' i) = true
        rw [hiff' i hi]
        cases hslot : slotAt nt' i with
        | none => rw [hslot] at hv; cases hv
        | some w => rfl
      have hszne : nt'.size ≠ 0 := by
        rw [hszeq, ← hxs3, ← hcounteq]
        omega
      unfold find_internal
      rw [if_neg hszne]
      exact hfl
  · intro v
    rw [hmem' v]
    have hxsv : v ∈ ([] ++ xs : List K) ↔ v ∈ xs := by simp
    rw [hxsv]
    exact hxs4 v
  · intro j hj
    rcases hdisc' j hj with hfull | hempty
    · exact isFullByte_ne_deleted hfull
    · rw [hempty]
      decide

/-! ### `std::bit_ceil` and the sizing of `reserve`/`rehash` -/

theorem bitCeilLoop_spec : ∀ fuel x, x ≤ fuel + 1 →
    (∃ k, bitCeilLoop fuel x = 2 ^ k) ∧ x ≤ bitCeilLoop fuel x ∧
      ∀ j, x ≤ 2 ^ j → bitCeilLoop fuel x ≤ 2 ^ j := by
  intro fuel
  induction fuel with
  | zero =>
    intro x hx
    refine ⟨⟨0, rfl⟩, by show x ≤ 1; omega, ?_⟩
    intro j _
    show 1 ≤ 2 ^ j
    exact Nat.one_le_two_pow
  | succ fuel ih =>
    intro x hx
    by_cases hx1 : x ≤ 1
    · rw [bitCeilLoop, if_pos hx1]
      refine ⟨⟨0, rfl⟩, by omega, ?_⟩
      intro j _
      exact Nat.one_le_two_pow
    · rw [bitCeilLoop, if_neg hx1]
      obtain ⟨⟨k, hk⟩, hge, hmin⟩ := ih ((x + 1) / 2) (by omega)
      refine ⟨⟨k + 1, by rw [hk, Nat.pow_succ, Nat.mul_comm]⟩, by omega, ?_⟩
      intro j hj
      have hj1 : 1 ≤ j := by
        by_contra hj0
        have : j = 0 := by omega
        subst this
        simp at hj
        omega
      have h2j : 2 ^ j = 2 * 2 ^ (j - 1) := by
        conv_lhs => rw [show j = j - 1 + 1 by omega]
        rw [Nat.pow_succ, Nat.mul_comm]
      have hped : (x + 1) / 2 ≤ 2 ^ (j - 1) := by omega
      have := hmin (j - 1) hped
      omega

theorem bitCeil_spec (x : Nat) :
    (∃ k, bitCeil x = 2 ^ k) ∧ x ≤ bitCeil x ∧
      ∀ j, x ≤ 2 ^ j → bitCeil x ≤ 2 ^ j :=
  bitCeilLoop_spec x x (by omega)

theorem findSmallestN_spec (n : Nat) :
    (∃ k, findSmallestN n = 2 ^ k) ∧ 0 < findSmallestN n ∧
      n + 1 ≤ LANE * findSmallestN n ∧
      ∀ j, n + 1 ≤ LANE * 2 ^ j → findSmallestN n ≤ 2 ^ j := by
  unfold findSmallestN
  obtain ⟨⟨k, hk⟩, hge, hmin⟩ := bitCeil_spec ((n + 1 + (LANE - 1)) / LANE)
  have hpos : 0 < bitCeil ((n + 1 + (LANE - 1)) / LANE) := by
    rw [hk]
    exact Nat.pos_pow_of_pos k (by omega)
  refine ⟨⟨k, hk⟩, hpos, ?_, ?_⟩
  · simp only [LANE] at hge ⊢
    omega
  · intro j hj
    apply hmin
    simp only [LANE] at hj ⊢
    omega

theorem wf_size_le_capacity {hashF : K → Nat} {t : Table K} (hwf : WF hashF t) :
    t.size ≤ t.capacity := by
  rcases hwf with he | ⟨-, -, -, hcount, -⟩
  · rw [he]
    exact Nat.le_refl 0
  · rw [hcount]
    unfold fullCount
    calc (List.range t.capacity).countP _ ≤ (List.range t.capacity).length :=
          List.countP_le_length _
      _ = t.capacity := List.length_range _

theorem reserve_spec {hashF : K → Nat} {t : Table K} {n : Nat}
    (hwf : WF hashF t) :
    ∃ t', reserve hashF t n = some t' ∧ WF hashF t' ∧ t'.size = t.size ∧
      (∀ v : K, (∃ i < t'.capacity, slotAt t' i = some v) ↔
        (∃ i < t.capacity, slotAt t i = some v)) ∧
      t.capacity ≤ t'.capacity ∧ desiredCapacity n ≤ t'.capacity ∧
      (desiredCapacity n ≤ t.capacity → t' = t) ∧
      (¬ desiredCapacity n ≤ t.capacity →
        t'.groups = findSmallestN (desiredCapacity n) ∧
        t'.capacity = LANE * t'.groups - 1 ∧
        (∀ j < t'.capacity, ctrlAt t' j ≠ ctrlDeleted)) := by
  by_cases hle : desiredCapacity n ≤ t.capacity
  · refine ⟨t, ?_, hwf, rfl, fun v => Iff.rfl, Nat.le_refl _, hle,
      fun _ => rfl, fun h => absurd hle h⟩
    unfold reserve
    rw [if_pos hle]
  · have hd := findSmallestN_spec (desiredCapacity n)
    obtain ⟨⟨k, hk⟩, hpos, hge, -⟩ := hd
    have hszle := wf_size_le_capacity hwf
    have hsz : t.size ≤ LANE * findSmallestN (desiredCapacity n) - 1 := by
      omega
    obtain ⟨t', himpl, hwf', hg', hc', hl', hs', hmemiff, hnodel⟩ :=
      rehashImpl_spec hwf ⟨k, hk⟩ hpos hsz
    refine ⟨t', ?_, hwf', hs', hmemiff, by omega, by omega, fun h => absurd h hle,
      fun _ => ⟨hg', by rw [hc', hg'], hnodel⟩⟩
    unfold reserve rehash
    rw [if_neg hle]
    exact himpl

/-! ### Emplace: the insertion path -/

theorem emplaceProbe_dup_loc {t : Table K} {v : K} {h2v : Nat} :
    ∀ f g r, emplaceProbe t v h2v f g = some (.dup r) →
      ∃ g' ∈ visitedG t.groups f g, ∃ lane < LANE,
        r = g' * LANE + lane ∧ ctrlAt t r = h2v ∧ slotAt t r = some v := by
  intro f
  induction f with
  | zero => intro g r h; cases h
  | succ f ih =>
    intro g r h
    rw [emplaceProbe] at h
    cases hhit : groupHit t v h2v g with
    | some i =>
      rw [hhit] at h
      have hir : i = r := by
        have : ProbeOutcome.dup i = ProbeOutcome.dup r := by simpa using h
        cases this
        rfl
      subst hir
      obtain ⟨l, hl, hdecomp, hcr, hsr⟩ := groupHit_some hhit
      exact ⟨g, List.mem_cons_self _ _, l, hl, hdecomp, hcr, hsr⟩
    | none =>
      rw [hhit] at h
      cases hfe : groupFirstEmpty t g with
      | some off => rw [hfe] at h; cases h
      | none =>
        rw [hfe] at h
        obtain ⟨g', hg', lane, hlane, hdecomp, hcr, hsr⟩ := ih _ _ h
        exact ⟨g', List.mem_cons_of_mem _ hg', lane, hlane, hdecomp, hcr, hsr⟩

/-- If the probe of `emplace_internal` reaches an `Empty` lane (no duplicate
found), the candidate is nowhere in the table. -/
theorem probe_empty_absent {hashF : K → Nat} {t : Table K} {v : K} {idx : Nat}
    (hgeom : Geom t) (hslots : SlotsOk t) (hcount : t.size = fullCount t)
    (hreach : ReachOk hashF t)
    (hp : emplaceProbe t v (h2 (hashF v)) t.groups
      (h1 (hashF v) &&& (t.groups - 1)) = some (.empty idx)) :
    ∀ j, slotAt t j ≠ some v := by
  intro j hv
  have hjsz : j < t.slots.size := slotAt_some_lt hv
  obtain ⟨-, -, hcap, -, hssz⟩ := hgeom
  have hj : j < t.capacity := by omega
  have hfind := hreach j hj v (by rw [hv]; rfl)
  have hsz : t.size ≠ 0 := by
    have hpos : 0 < fullCount t := by
      unfold fullCount
      rw [List.countP_pos_iff]
      refine ⟨j, List.mem_range.mpr hj, ?_⟩
      show isFullByte (ctrlAt t j) = true
      rw [hslots.1 j hj, hv]
      rfl
    omega
  unfold find_internal at hfind
  rw [if_neg hsz] at hfind
  have := findLoop_to_probe _ _ _ hfind (by omega)
  rw [hp] at this
  cases this

/-- The direct placement case of `emplace_internal`: probing found the first
`Empty` lane of the first group with one and the load limit is not exceeded,
so the element is written there.  The invariant is preserved and the new
element is found at its slot. -/
theorem emplace_place_spec {hashF : K → Nat} {t : Table K} {v : K} {idx : Nat}
    (hgeom : Geom t) (hsent : SentinelOk t) (hslots : SlotsOk t)
    (hcount : t.size = fullCount t) (hreach : ReachOk hashF t)
    (hp : emplaceProbe t v (h2 (hashF v)) t.groups
      (h1 (hashF v) &&& (t.groups - 1)) = some (.empty idx)) :
    ctrlAt t idx = ctrlEmpty ∧ idx < t.capacity ∧
      WF hashF (setSlot t idx (h2 (hashF v)) v) ∧
      find_internal hashF (setSlot t idx (h2 (hashF v)) v) v = some idx := by
  have hpow := geom_pow hgeom
  obtain ⟨hpowB, hlen, hcap, hcsz, hssz⟩ := hgeom
  have hlen16 : t.ctrlLen = 16 * t.groups := by simpa [LANE] using hlen
  have hnotin := probe_empty_absent ⟨hpowB, hlen, hcap, hcsz, hssz⟩ hslots
    hcount hreach hp
  have hg0 : h1 (hashF v) &&& (t.groups - 1) < t.groups := mask_lt hpow
  obtain ⟨g', hg'mem, off, hoff, hidxeq, hfe'⟩ := emplaceProbe_empty_loc _ _ _ hp
  have hg' : g' < t.groups := visitedG_mem_lt hpow hg0 _ hg'mem
  have hidxE : ctrlAt t idx = ctrlEmpty := by
    rw [hidxeq]
    exact (groupFirstEmpty_some hfe').2.1
  have hidxlt : idx < t.ctrlLen := by
    rw [hlen16, hidxeq]
    simp only [LANE] at hoff ⊢
    omega
  have hidxne : idx ≠ t.capacity := by
    intro h
    rw [h, hsent.1] at hidxE
    exact absurd hidxE (by decide)
  have hidxcap : idx < t.capacity := by omega
  have hc : ∀ j, ctrlAt (setSlot t idx (h2 (hashF v)) v) j =
      if j = idx then h2 (hashF v) else ctrlAt t j :=
    fun j => ctrlAt_setSlot (by omega) j
  have hs : ∀ j, slotAt (setSlot t idx (h2 (hashF v)) v) j =
      if j = idx then some v else slotAt t j :=
    fun j => slotAt_setSlot (by omega) j
  have hH1 : ∀ (w : K), w ≠ v → ∀ g,
      groupHit (setSlot t idx (h2 (hashF v)) v) w (h2 (hashF w)) g =
        groupHit t w (h2 (hashF w)) g := by
    intro w hwv g
    apply groupHit_ext_pred
    intro l hl
    by_cases ha : g * LANE + l = idx
    · have hsl : slotAt (setSlot t idx (h2 (hashF v)) v) (g * LANE + l) =
          some v := by rw [hs, if_pos ha]
      have hse : slotEq (setSlot t idx (h2 (hashF v)) v) w (g * LANE + l)
          = false := by
        unfold slotEq
        rw [hsl]
        have hvw : v ≠ w := fun h => hwv h.symm
        simp [hvw]
      have hco : ctrlAt t (g * LANE + l) = ctrlEmpty := ha ▸ hidxE
      have hbeq : (ctrlAt t (g * LANE + l) == h2 (hashF w)) = false := by
        rw [hco]
        exact beq_false_of_ne (by have := h2_lt (hashF w); simp [ctrlEmpty]; omega)
      rw [hse, hbeq]
      simp
    · have hcl : ctrlAt (setSlot t idx (h2 (hashF v)) v) (g * LANE + l) =
          ctrlAt t (g * LANE + l) := by rw [hc, if_neg ha]
      have hsl : slotAt (setSlot t idx (h2 (hashF v)) v) (g * LANE + l) =
          slotAt t (g * LANE + l) := by rw [hs, if_neg ha]
      rw [hcl]
      unfold slotEq
      rw [hsl]
  have hH2 := groupAnyEmpty_shrink hc (h2_lt (hashF v))
  have hfindv : findLoop (setSlot t idx (h2 (hashF v)) v) v (h2 (hashF v))
      t.groups (h1 (hashF v) &&& (t.groups - 1)) = some idx :=
    @probe_empty_place_find K _ t (setSlot t idx (h2 (hashF v)) v) v
      (h2 (hashF v)) idx rfl hpow hc hs t.groups _ (Nat.le_refl _) hg0 hp
  have hcount' : fullCount (setSlot t idx (h2 (hashF v)) v) = fullCount t + 1 := by
    unfold fullCount
    show List.countP
        (fun i => isFullByte (ctrlAt (setSlot t idx (h2 (hashF v)) v) i))
        (List.range t.capacity) = _
    exact @countP_update (List.range t.capacity) idx
      (fun i => isFullByte (ctrlAt t i))
      (fun i => isFullByte (ctrlAt (setSlot t idx (h2 (hashF v)) v) i))
      (List.nodup_range _) (List.mem_range.mpr hidxcap)
      (fun j hj => by simp only; rw [hc, if_neg hj])
      (by simp only; rw [hidxE]; simp [isFullByte, ctrlEmpty])
      (by simp only; rw [hc, if_pos rfl]; exact isFullByte_h2 _)
  have hwf' : WF hashF (setSlot t idx (h2 (hashF v)) v) := by
    right
    refine ⟨⟨hpowB, hlen, hcap, ?_, ?_⟩, ⟨?_, ?_⟩, ⟨?_, ?_⟩, ?_, ?_⟩
    · show (t.ctrl.setD idx (h2 (hashF v))).size = t.ctrlLen
      simp [hcsz]
    · show (t.slots.setD idx (some v)).size = t.capacity
      simp [hssz]
    · show ctrlAt (setSlot t idx (h2 (hashF v)) v) t.capacity = ctrlSentinel
      rw [hc, if_neg (by omega)]
      exact hsent.1
    · intro i hi
      rw [hc]
      by_cases ha : i = idx
      · rw [if_pos ha]
        exact isFullByte_ne_sentinel (isFullByte_h2 _)
      · rw [if_neg ha]
        exact hsent.2 i hi
    · intro i hi
      rw [hc, hs]
      by_cases ha : i = idx
      · rw [if_pos ha, if_pos ha]
        simp [isFullByte_h2]
      · rw [if_neg ha, if_neg ha]
        exact hslots.1 i hi
    · intro i hi
      rw [hc]
      by_cases ha : i = idx
      · rw [if_pos ha]
        left
        exact isFullByte_h2 _
      · rw [if_neg ha]
        exact hslots.2 i hi
    · show (setSlot t idx (h2 (hashF v)) v).size = _
      rw [hcount']
      show t.size + 1 = fullCount t + 1
      omega
    · intro i hi w hw
      have hi' : i < t.capacity := hi
      rw [hs] at hw
      have hszne : (setSlot t idx (h2 (hashF v)) v).size ≠ 0 := by
        show t.size + 1 ≠ 0
        omega
      unfold find_internal
      rw [if_neg hszne]
      by_cases ha : i = idx
      · subst ha
        rw [if_pos rfl] at hw
        have hwv : v = w := by simpa using hw
        subst hwv
        exact hfindv
      · rw [if_neg ha] at hw
        have hw' : slotAt t i = some w := hw
        have hwv : w ≠ v := fun h => hnotin i (h ▸ hw')
        have hr := hreach i hi' w (by rw [hw']; rfl)
        have hszt : t.size ≠ 0 := by
          have hpos : 0 < fullCount t := by
            unfold fullCount
            rw [List.countP_pos_iff]
            refine ⟨i, List.mem_range.mpr hi', ?_⟩
            show isFullByte (ctrlAt t i) = true
            rw [hslots.1 i hi', hw']
            rfl
          omega
        unfold find_internal at hr
        rw [if_neg hszt] at hr
        exact @findLoop_stable K _ t (setSlot t idx (h2 (hashF v)) v) w
          (h2 (hashF w)) rfl rfl hpow
          (fun g _ => hH1 w hwv g) (fun g _ => hH2 g) t.groups _ i
          (mask_lt hpow) hr (by omega)
  refine ⟨hidxE, hidxcap, hwf', ?_⟩
  unfold find_internal
  rw [if_neg (by show t.size + 1 ≠ 0; omega)]
  exact hfindv

theorem probe_dup_find {hashF : K → Nat} {t : Table K} {v : K} {i : Nat}
    (hgeom : Geom t) (hcount : t.size = fullCount t) (hslots : SlotsOk t)
    (hp : emplaceProbe t v (h2 (hashF v)) t.groups
      (h1 (hashF v) &&& (t.groups - 1)) = some (.dup i)) :
    find_internal hashF t v = some i ∧ i < t.ctrlLen ∧ slotAt t i = some v := by
  obtain ⟨g', hg'mem, lane, hlane, hdecomp, hcr, hsr⟩ :=
    emplaceProbe_dup_loc _ _ _ hp
  have hpow := geom_pow hgeom
  obtain ⟨-, hlen, hcap, -, hssz⟩ := hgeom
  have hg' : g' < t.groups := visitedG_mem_lt hpow (mask_lt hpow) _ hg'mem
  have hilt : i < t.ctrlLen := by
    have hlen16 : t.ctrlLen = 16 * t.groups := by simpa [LANE] using hlen
    rw [hlen16, hdecomp]
    simp only [LANE] at hlane ⊢
    omega
  have hfl := probe_dup_to_findLoop _ _ _ hp
  have hicap : i < t.capacity := by
    have := slotAt_some_lt hsr
    omega
  have hszne : t.size ≠ 0 := by
    have hpos : 0 < fullCount t := by
      unfold fullCount
      rw [List.countP_pos_iff]
      refine ⟨i, List.mem_range.mpr hicap, ?_⟩
      show isFullByte (ctrlAt t i) = true
      rw [hslots.1 i hicap, hsr]
      rfl
    omega
  refine ⟨?_, hilt, hsr⟩
  unfold find_internal
  rw [if_neg hszne]
  exact hfl

theorem wf_absent_of_no_live {hashF : K → Nat} {t : Table K} (hwf : WF hashF t)
    {w : K} (h : ¬ ∃ i, i < t.capacity ∧ slotAt t i = some w) :
    ∀ j, slotAt t j ≠ some w := by
  intro j hj
  have hjsz := slotAt_some_lt hj
  rcases hwf with he | ⟨⟨-, -, -, -, hssz⟩, -⟩
  · rw [he] at hjsz
    simp [Table.empty] at hjsz
  · exact h ⟨j, by omega, hj⟩

/-- Master specification of `emplace_internal` (with restart fuel): the
invariant is preserved, the returned index locates the key, a `false` flag
means the table is unchanged and the key was already present, and a `true`
flag exhibits the pre-placement table (the input, possibly rehash-grown) and
the `Empty` slot that was written. -/
theorem emplace_internal_spec {hashF : K → Nat} {v : K} :
    ∀ (r : Nat) (t t' : Table K) (idx : Nat) (b : Bool), WF hashF t →
      emplace_internal hashF v (hashF v) r t = some (t', idx, b) →
      WF hashF t' ∧ find_internal hashF t' v = some idx ∧ idx < t'.ctrlLen ∧
        (b = false → t' = t ∧ slotAt t idx = some v) ∧
        (b = true → (∀ j, slotAt t j ≠ some v) ∧
          ∃ t0 : Table K, WF hashF t0 ∧ t0.size = t.size ∧
            ctrlAt t0 idx = ctrlEmpty ∧
            emplaceProbe t0 v (h2 (hashF v)) t0.groups
              (h1 (hashF v) &&& (t0.groups - 1)) = some (.empty idx) ∧
            t' = setSlot t0 idx (h2 (hashF v)) v ∧ t'.size = t0.size + 1) := by
  intro r
  induction r with
  | zero => intro t t' idx b _ h; cases h
  | succ r ih =>
    intro t t' idx b hwf h
    have hpre : ∃ t1, (if t.capacity = 0 then reserve hashF t 1 else some t) =
        some t1 ∧ WF hashF t1 ∧ t1.size = t.size ∧
        (∀ w : K, (∃ i, i < t1.capacity ∧ slotAt t1 i = some w) ↔
          (∃ i, i < t.capacity ∧ slotAt t i = some w)) ∧
        (t.capacity ≠ 0 → t1 = t) := by
      by_cases hcap0 : t.capacity = 0
      · rw [if_pos hcap0]
        obtain ⟨t1, hres, hwf1, hsz1, hmem1, -⟩ := @reserve_spec K _ hashF t 1 hwf
        exact ⟨t1, hres, hwf1, hsz1, fun w => hmem1 w, fun hne => absurd hcap0 hne⟩
      · rw [if_neg hcap0]
        exact ⟨t, rfl, hwf, rfl, fun w => Iff.rfl, fun _ => rfl⟩
    obtain ⟨t1, hpre1, hwf1, hsz1, hmem1, hT1⟩ := hpre
    rw [emplace_internal, hpre1, Option.some_bind] at h
    cases hprobe : emplaceProbe t1 v (h2 (hashF v)) t1.groups
        (h1 (hashF v) &&& (t1.groups - 1)) with
    | none => rw [hprobe] at h; cases h
    | some outcome =>
      rw [hprobe] at h
      have halloc : t1 ≠ Table.empty K → Geom t1 ∧ SentinelOk t1 ∧ SlotsOk t1 ∧
          t1.size = fullCount t1 ∧ ReachOk hashF t1 := by
        intro hne
        rcases hwf1 with he | hrest
        · exact absurd he hne
        · exact hrest
      have hne1 : t1 ≠ Table.empty K := by
        intro he
        rw [he] at hprobe
        cases hprobe
      obtain ⟨hgeom1, hsent1, hslots1, hcount1, hreach1⟩ := halloc hne1
      cases outcome with
      | dup i =>
        have htup : (t1, i, false) = (t', idx, b) :=
          Option.some_inj.mp (h : some (t1, i, false) = some (t', idx, b))
        have hT : t1 = t' := congrArg Prod.fst htup
        have hI : i = idx := congrArg (fun p => p.2.1) htup
        have hB : (false : Bool) = b := congrArg (fun p => p.2.2) htup
        subst hT
        subst hI
        subst hB
        obtain ⟨hfind, hlt, hslot⟩ := probe_dup_find hgeom1 hcount1 hslots1 hprobe
        have hicap : i < t1.capacity := by
          have := slotAt_some_lt hslot
          obtain ⟨-, -, -, -, hssz⟩ := hgeom1
          omega
        have hlive_t : ∃ j, j < t.capacity ∧ slotAt t j = some v :=
          (hmem1 v).mp ⟨i, hicap, hslot⟩
        have hcapne : t.capacity ≠ 0 := by
          obtain ⟨j, hj, -⟩ := hlive_t
          omega
        have ht1t : t1 = t := hT1 hcapne
        refine ⟨hwf1, hfind, hlt, fun _ => ⟨ht1t, ?_⟩,
          fun hb => Bool.noConfusion hb⟩
        rw [← ht1t]
        exact hslot
      | empty i =>
        have habs1 : ∀ j, slotAt t1 j ≠ some v :=
          probe_empty_absent hgeom1 hslots1 hcount1 hreach1 hprobe
        have habs_t : ∀ j, slotAt t j ≠ some v := by
          apply wf_absent_of_no_live hwf
          intro hlive
          obtain ⟨j1, hj1, hs1⟩ := (hmem1 v).mpr hlive
          exact habs1 j1 hs1
        have h' : (if 8 * (t1.size + 1) > 7 * t1.capacity then
            (reserve hashF t1 (t1.size + 1)).bind
              (emplace_internal hashF v (hashF v) r)
          else some (setSlot t1 i (h2 (hashF v)) v, i, true)) =
            some (t', idx, b) := h
        by_cases hover : 8 * (t1.size + 1) > 7 * t1.capacity
        · rw [if_pos hover] at h'
          obtain ⟨t2, hres2, hwf2, hsz2, hmem2, -, -, -, -⟩ :=
            @reserve_spec K _ hashF t1 (t1.size + 1) hwf1
          rw [hres2, Option.some_bind] at h'
          obtain ⟨hwf', hfind', hlt', hbf, hbt⟩ := ih t2 t' idx b hwf2 h'
          have habs2 : ∀ j, slotAt t2 j ≠ some v := by
            apply wf_absent_of_no_live hwf2
            intro hlive
            obtain ⟨j1, hj1, hs1⟩ := (hmem2 v).mp hlive
            exact habs1 j1 hs1
          have hbtrue : b = true := by
            cases b with
            | true => rfl
            | false =>
              exfalso
              obtain ⟨ht2, hslot2⟩ := hbf rfl
              exact habs2 idx hslot2
          subst hbtrue
          refine ⟨hwf', hfind', hlt', fun hb => Bool.noConfusion hb, fun _ => ?_⟩
          obtain ⟨-, t0, hwf0, hsz0, hc0, hp0, ht'0, hszinc⟩ := hbt rfl
          exact ⟨habs_t, t0, hwf0, by omega, hc0, hp0, ht'0, hszinc⟩
        · rw [if_neg hover] at h'
          have htup : (setSlot t1 i (h2 (hashF v)) v, i, true) = (t', idx, b) :=
            Option.some_inj.mp h'
          have hT : setSlot t1 i (h2 (hashF v)) v = t' := congrArg Prod.fst htup
          have hI : i = idx := congrArg (fun p => p.2.1) htup
          have hB : (true : Bool) = b := congrArg (fun p => p.2.2) htup
          subst hT
          subst hI
          subst hB
          obtain ⟨hcE, hicap, hwf', hfind'⟩ :=
            emplace_place_spec hgeom1 hsent1 hslots1 hcount1 hreach1 hprobe
          refine ⟨hwf', hfind', ?_, fun hb => Bool.noConfusion hb, fun _ => ?_⟩
          · show i < t1.ctrlLen
            obtain ⟨-, -, hcap, -, -⟩ := hgeom1
            omega
          · exact ⟨habs_t, t1, hwf1, hsz1, hcE, hprobe, rfl, rfl⟩

/-! ### Erase -/

theorem erase_slot_spec {hashF : K → Nat} {t : Table K} {j : Nat}
    (hgeom : Geom t) (hsent : SentinelOk t) (hslots : SlotsOk t)
    (hcount : t.size = fullCount t) (hreach : ReachOk hashF t)
    (hj : j < t.capacity) (hfull : isFullByte (ctrlAt t j) = true) :
    slotAt (erase_slot t j) j = none ∧
      (erase_slot t j).size + 1 = t.size ∧
      ctrlAt (erase_slot t j) j =
        (if groupAnyEmpty t (j / LANE) then ctrlEmpty else ctrlDeleted) ∧
      (∀ i, i ≠ j → ctrlAt (erase_slot t j) i = ctrlAt t i) ∧
      (∀ i, i ≠ j → slotAt (erase_slot t j) i = slotAt t i) ∧
      WF hashF (erase_slot t j) ∧
      (∀ w, slotAt t j = some w → ∀ i, slotAt (erase_slot t j) i ≠ some w) := by
  have hpow := geom_pow hgeom
  obtain ⟨hpowB, hlen, hcap, hcsz, hssz⟩ := hgeom
  have hc : ∀ i, ctrlAt (erase_slot t j) i =
      if i = j then (if groupAnyEmpty t (j / LANE) then ctrlEmpty else ctrlDeleted)
      else ctrlAt t i :=
    fun i => ctrlAt_erase_slot (by omega) i
  have hs : ∀ i, slotAt (erase_slot t j) i = if i = j then none else slotAt t i :=
    fun i => slotAt_erase_slot (by omega) i
  have hw0 : ∃ w0, slotAt t j = some w0 := by
    have := hslots.1 j hj
    rw [hfull] at this
    cases hv : slotAt t j with
    | none => rw [hv] at this; cases this
    | some w => exact ⟨w, rfl⟩
  obtain ⟨w0, hw0⟩ := hw0
  have hnewbyte :
      (if groupAnyEmpty t (j / LANE) then ctrlEmpty else ctrlDeleted) = ctrlEmpty ∨
      (if groupAnyEmpty t (j / LANE) then ctrlEmpty else ctrlDeleted) = ctrlDeleted := by
    by_cases hae : groupAnyEmpty t (j / LANE)
    · left; rw [if_pos hae]
    · right; rw [if_neg hae]
  have hnewnotfull :
      isFullByte (if groupAnyEmpty t (j / LANE) then ctrlEmpty else ctrlDeleted)
        = false := by
    rcases hnewbyte with h | h <;> rw [h] <;> decide
  have hszpos : 0 < t.size := by
    have hpos : 0 < fullCount t := by
      unfold fullCount
      rw [List.countP_pos_iff]
      exact ⟨j, List.mem_range.mpr hj, hfull⟩
    omega
  have hcount' : fullCount t = fullCount (erase_slot t j) + 1 := by
    unfold fullCount
    show List.countP (fun i => isFullByte (ctrlAt t i)) (List.range t.capacity) =
      List.countP (fun i => isFullByte (ctrlAt (erase_slot t j) i))
        (List.range t.capacity) + 1
    exact @countP_update (List.range t.capacity) j
      (fun i => isFullByte (ctrlAt (erase_slot t j) i))
      (fun i => isFullByte (ctrlAt t i))
      (List.nodup_range _) (List.mem_range.mpr hj)
      (fun i hi => by simp only; rw [hc, if_neg hi])
      (by simp only; rw [hc, if_pos rfl]; exact hnewnotfull)
      (by simp only; exact hfull)
  have hH1 : ∀ (w : K), w ≠ w0 → ∀ g,
      groupHit (erase_slot t j) w (h2 (hashF w)) g =
        groupHit t w (h2 (hashF w)) g := by
    intro w hww0 g
    apply groupHit_ext_pred
    intro l hl
    by_cases ha : g * LANE + l = j
    · have hse' : slotEq (erase_slot t j) w (g * LANE + l) = false := by
        unfold slotEq
        rw [hs, if_pos ha]
      have hse : slotEq t w (g * LANE + l) = false := by
        unfold slotEq
        rw [ha, hw0]
        exact decide_eq_false (fun h => hww0 h.symm)
      have hbeq' : (ctrlAt (erase_slot t j) (g * LANE + l) == h2 (hashF w))
          = false := by
        rw [hc, if_pos ha]
        rcases hnewbyte with hb | hb <;> rw [hb] <;>
          exact beq_false_of_ne
            (by have := h2_lt (hashF w); simp [ctrlEmpty, ctrlDeleted]; omega)
      rw [hse', hse, hbeq']
      simp
    · have hcl : ctrlAt (erase_slot t j) (g * LANE + l) = ctrlAt t (g * LANE + l) := by
        rw [hc, if_neg ha]
      have hsl : slotAt (erase_slot t j) (g * LANE + l) = slotAt t (g * LANE + l) := by
        rw [hs, if_neg ha]
      rw [hcl]
      unfold slotEq
      rw [hsl]
  have hH2 : ∀ g, groupAnyEmpty (erase_slot t j) g = true →
      groupAnyEmpty t g = true := by
    intro g hae'
    by_cases haej : groupAnyEmpty t (j / LANE) = true
    · -- the erased byte became Empty, but its group already had one
      by_cases hgj : g = j / LANE
      · rw [hgj]; exact haej
      · unfold groupAnyEmpty at hae' ⊢
        rw [List.any_eq_true] at hae' ⊢
        obtain ⟨l, hl, hp⟩ := hae'
        refine ⟨l, hl, ?_⟩
        have hne : g * LANE + l ≠ j := by
          intro h
          apply hgj
          have hlL : l < LANE := List.mem_range.mp hl
          rw [← h]
          simp only [LANE] at hlL ⊢
          omega
        rw [hc, if_neg hne] at hp
        exact hp
    · -- the erased byte became Deleted: Empty lanes unchanged everywhere
      unfold groupAnyEmpty at hae' ⊢
      rw [List.any_eq_true] at hae' ⊢
      obtain ⟨l, hl, hp⟩ := hae'
      refine ⟨l, hl, ?_⟩
      by_cases hne : g * LANE + l = j
      · rw [hc, if_pos hne] at hp
        rw [if_neg haej] at hp
        have : ctrlDeleted = ctrlEmpty := by simpa using hp
        exact absurd this (by decide)
      · rw [hc, if_neg hne] at hp
        exact hp
  have huniq : ∀ i < t.capacity, ∀ w, slotAt t i = some w → w = w0 → i = j :=
    fun i hi w hw hww0 => reach_unique hreach hi hj (hww0 ▸ hw) hw0
  have hwf' : WF hashF (erase_slot t j) := by
    right
    refine ⟨⟨hpowB, hlen, hcap, ?_, ?_⟩, ⟨?_, ?_⟩, ⟨?_, ?_⟩, ?_, ?_⟩
    · show (t.ctrl.setD j _).size = t.ctrlLen
      simp [hcsz]
    · show (t.slots.setD j none).size = t.capacity
      simp [hssz]
    · show ctrlAt (erase_slot t j) t.capacity = ctrlSentinel
      rw [hc, if_neg (by omega)]
      exact hsent.1
    · intro i hi
      rw [hc]
      by_cases ha : i = j
      · rw [if_pos ha]
        rcases hnewbyte with h | h <;> rw [h] <;> decide
      · rw [if_neg ha]
        exact hsent.2 i hi
    · intro i hi
      rw [hc, hs]
      by_cases ha : i = j
      · rw [if_pos ha, if_pos ha, hnewnotfull]
        rfl
      · rw [if_neg ha, if_neg ha]
        exact hslots.1 i hi
    · intro i hi
      rw [hc]
      by_cases ha : i = j
      · rw [if_pos ha]
        right
        rcases hnewbyte with h | h
        · left; exact h
        · right; exact h
      · rw [if_neg ha]
        exact hslots.2 i hi
    · show t.size - 1 = fullCount (erase_slot t j)
      omega
    · intro i hi w hw
      have hi' : i < t.capacity := hi
      rw [hs] at hw
      by_cases ha : i = j
      · rw [if_pos ha] at hw
        cases hw
      · rw [if_neg ha] at hw
        have hw' : slotAt t i = some w := hw
        have hww0 : w ≠ w0 := fun h => ha (huniq i hi' w hw' h)
        have hr := hreach i hi' w (by rw [hw']; rfl)
        unfold find_internal at hr
        rw [if_neg (by omega)] at hr
        have hfl := @findLoop_stable K _ t (erase_slot t j) w
          (h2 (hashF w)) rfl rfl hpow
          (fun g _ => hH1 w hww0 g) (fun g _ => hH2 g) t.groups _ i
          (mask_lt hpow) hr (by omega)
        have hszne' : (erase_slot t j).size ≠ 0 := by
          show t.size - 1 ≠ 0
          have hpos' : 0 < fullCount (erase_slot t j) := by
            unfold fullCount
            rw [List.countP_pos_iff]
            refine ⟨i, List.mem_range.mpr hi', ?_⟩
            show isFullByte (ctrlAt (erase_slot t j) i) = true
            rw [hc, if_neg ha, hslots.1 i hi', hw']
            rfl
          omega
        unfold find_internal
        rw [if_neg hszne']
        exact hfl
  refine ⟨by rw [hs, if_pos rfl], by show t.size - 1 + 1 = t.size; omega,
    by rw [hc, if_pos rfl], fun i hi => by rw [hc, if_neg hi],
    fun i hi => by rw [hs, if_neg hi], hwf', ?_⟩
  intro w hwj i hwi
  have hww0 : w = w0 := by
    rw [hw0] at hwj
    exact (Option.some_inj.mp hwj).symm
  rw [hs] at hwi
  by_cases ha : i = j
  · rw [if_pos ha] at hwi
    cases hwi
  · rw [if_neg ha] at hwi
    have hisz := slotAt_some_lt (t := t) hwi
    have hi' : i < t.capacity := by omega
    exact ha (huniq i hi' w hwi hww0)

/-! ### Facade-level lookup and erase characterizations -/

theorem find_hit_loc {hashF : K → Nat} {t : Table K} {key : K} {r : Nat}
    (hwf : WF hashF t) (hf : find_internal hashF t key = some r)
    (hr : r ≠ t.ctrlLen) : r < t.capacity ∧ slotAt t r = some key := by
  rcases hwf with he | ⟨hgeom, hsent, hslots, hcount, hreach⟩
  · subst he
    unfold find_internal at hf
    rw [if_pos (show (Table.empty K).size = 0 from rfl)] at hf
    exact absurd (Option.some_inj.mp hf).symm hr
  · unfold find_internal at hf
    by_cases hsz : t.size = 0
    · rw [if_pos hsz] at hf
      exact absurd (Option.some_inj.mp hf).symm hr
    · rw [if_neg hsz] at hf
      have hpow := geom_pow hgeom
      obtain ⟨g', hg', l, hl, hdecomp, hc, hs⟩ :=
        findLoop_some_correct hpow t.groups _ r (mask_lt hpow) hf hr
      have hcap := slotAt_some_lt hs
      obtain ⟨-, -, -, -, hssz⟩ := hgeom
      exact ⟨by omega, hs⟩

theorem find_miss_of_absent {hashF : K → Nat} {t : Table K} {key : K} {r : Nat}
    (hwf : WF hashF t) (habs : ∀ j, slotAt t j ≠ some key)
    (hf : find_internal hashF t key = some r) : r = t.ctrlLen := by
  by_contra hr
  exact habs r (find_hit_loc hwf hf hr).2

theorem eraseKey_spec {hashF : K → Nat} {t t' : Table K} {key : K} {n : Nat}
    (hwf : WF hashF t) (h : eraseKey hashF t key = some (t', n)) :
    WF hashF t' ∧
      ((∃ i < t.capacity, slotAt t i = some key) →
        n = 1 ∧ t'.size + 1 = t.size ∧ (∀ j, slotAt t' j ≠ some key) ∧
          (∃ r < t.capacity, slotAt t r = some key ∧
            (∀ i, i ≠ r → slotAt t' i = slotAt t i))) ∧
      ((∀ j, slotAt t j ≠ some key) → n = 0 ∧ t' = t) := by
  unfold eraseKey at h
  cases hf : find_internal hashF t key with
  | none => rw [hf] at h; cases h
  | some idx =>
    rw [hf] at h
    have h9 : some (if idx = t.ctrlLen then (t, 0) else (erase_slot t idx, 1)) =
        some (t', n) := h
    by_cases hi : idx = t.ctrlLen
    · rw [if_pos hi] at h9
      have ht' : t' = t := (congrArg Prod.fst (Option.some_inj.mp h9)).symm
      have hn : n = 0 := (congrArg Prod.snd (Option.some_inj.mp h9)).symm
      subst ht'
      refine ⟨hwf, ?_, fun _ => ⟨hn, rfl⟩⟩
      rintro ⟨i, hic, his⟩
      rcases hwf with he | ⟨hgeom, -, -, -, hreach⟩
      · rw [he] at his
        simp [slotAt, Table.empty] at his
      · have := hreach i hic key (by rw [his]; rfl)
        rw [hf] at this
        have hii : idx = i := Option.some_inj.mp this
        obtain ⟨-, -, hcap, -, -⟩ := hgeom
        omega
    · rw [if_neg hi] at h9
      have ht' : t' = erase_slot t idx :=
        (congrArg Prod.fst (Option.some_inj.mp h9)).symm
      have hn : n = 1 := (congrArg Prod.snd (Option.some_inj.mp h9)).symm
      obtain ⟨hic, his⟩ := find_hit_loc hwf hf hi
      rcases hwf with he | ⟨hgeom, hsent, hslots, hcount, hreach⟩
      · rw [he] at his
        simp [slotAt, Table.empty] at his
      · have hfull : isFullByte (ctrlAt t idx) = true := by
          rw [hslots.1 idx hic, his]; rfl
        obtain ⟨hs0, hsz1, -, -, hsame, hwf', hrem⟩ :=
          erase_slot_spec hgeom hsent hslots hcount hreach hic hfull
        subst ht'
        refine ⟨hwf', fun _ => ⟨hn, hsz1, hrem key his, idx, hic, his, hsame⟩,
          fun habs => absurd his (habs idx)⟩

theorem tryErase_spec {hashF : K → Nat} {t : Table K} {key : K}
    {res : Except Error (Table K)}
    (hwf : WF hashF t) (h : tryErase hashF t key = some res) :
    ((∃ i < t.capacity, slotAt t i = some key) →
      ∃ t', res = .ok t' ∧ WF hashF t' ∧ t'.size + 1 = t.size ∧
        (∀ j, slotAt t' j ≠ some key)) ∧
    ((∀ j, slotAt t j ≠ some key) → res = .error .NotFound) := by
  unfold tryErase at h
  cases hf : find_internal hashF t key with
  | none => rw [hf] at h; cases h
  | some idx =>
    rw [hf] at h
    have h9 : some (if idx = t.ctrlLen then (Except.error Error.NotFound)
        else Except.ok (erase_slot t idx)) = some res := h
    have hres := (Option.some_inj.mp h9).symm
    by_cases hi : idx = t.ctrlLen
    · rw [if_pos hi] at hres
      refine ⟨?_, fun _ => hres⟩
      rintro ⟨i, hic, his⟩
      rcases hwf with he | ⟨hgeom, -, -, -, hreach⟩
      · rw [he] at his
        simp [slotAt, Table.empty] at his
      · have := hreach i hic key (by rw [his]; rfl)
        rw [hf] at this
        have hii : idx = i := Option.some_inj.mp this
        obtain ⟨-, -, hcap, -, -⟩ := hgeom
        omega
    · rw [if_neg hi] at hres
      obtain ⟨hic, his⟩ := find_hit_loc hwf hf hi
      rcases hwf with he | ⟨hgeom, hsent, hslots, hcount, hreach⟩
      · rw [he] at his
        simp [slotAt, Table.empty] at his
      · have hfull : isFullByte (ctrlAt t idx) = true := by
          rw [hslots.1 idx hic, his]; rfl
        obtain ⟨hs0, hsz1, -, -, hsame, hwf', hrem⟩ :=
          erase_slot_spec hgeom hsent hslots hcount hreach hic hfull
        exact ⟨fun _ => ⟨erase_slot t idx, hres, hwf', hsz1, hrem key his⟩,
          fun habs => absurd his (habs idx)⟩

theorem get_spec {hashF : K → Nat} {t : Table K} {key : K}
    {res : Except Error K}
    (hwf : WF hashF t) (h : get hashF t key = some res) :
    ((∃ i < t.capacity, slotAt t i = some key) → res = .ok key) ∧
    ((∀ j, slotAt t j ≠ some key) → res = .error .NotFound) := by
  unfold get at h
  cases hf : find_internal hashF t key with
  | none => rw [hf] at h; cases h
  | some idx =>
    rw [hf] at h
    have h9 : some (if idx = t.ctrlLen then (Except.error Error.NotFound)
        else match slotAt t idx with
          | some v => Except.ok v
          | none => Except.error Error.NotFound) = some res := h
    have hres := (Option.some_inj.mp h9).symm
    by_cases hi : idx = t.ctrlLen
    · rw [if_pos hi] at hres
      refine ⟨?_, fun _ => hres⟩
      rintro ⟨i, hic, his⟩
      rcases hwf with he | ⟨hgeom, -, -, -, hreach⟩
      · rw [he] at his
        simp [slotAt, Table.empty] at his
      · have := hreach i hic key (by rw [his]; rfl)
        rw [hf] at this
        have hii : idx = i := Option.some_inj.mp this
        obtain ⟨-, -, hcap, -, -⟩ := hgeom
        omega
    · rw [if_neg hi] at hres
      obtain ⟨hic, his⟩ := find_hit_loc hwf hf hi
      rw [his] at hres
      exact ⟨fun _ => hres, fun habs => absurd his (habs idx)⟩

theorem findLoop_eq_findSpecLoop {t : Table K} {key : K} {h2v : Nat}
    (hpow : ∃ m, t.groups = 2 ^ m) :
    ∀ f g, findLoop t key h2v f g = findSpecLoop t key h2v f g := by
  intro f
  induction f with
  | zero => intro g; rfl
  | succ f ih =>
    intro g
    rw [findLoop, findSpecLoop]
    cases hfind : (List.range LANE).find? (fun l =>
        (ctrlAt t (g * LANE + l) == h2v) && slotEq t key (g * LANE + l)) with
    | some l =>
      have hg : groupHit t key h2v g = some (g * LANE + l) := by
        rw [groupHit_eq_find?, hfind]
        rfl
      rw [hg]
    | none =>
      have hg : groupHit t key h2v g = none := by
        rw [groupHit_eq_find?, hfind]
        rfl
      rw [hg]
      show (if groupAnyEmpty t g then some t.ctrlLen
          else findLoop t key h2v f ((g + 1) &&& (t.groups - 1))) =
        (if groupAnyEmpty t g then some t.ctrlLen
          else findSpecLoop t key h2v f ((g + 1) % t.groups))
      by_cases hae : groupAnyEmpty t g
      · rw [if_pos hae, if_pos hae]
      · rw [if_neg hae, if_neg hae, land_mask' hpow]
        exact ih _

theorem find_internal_eq_findSpec {hashF : K → Nat} {t : Table K} (key : K)
    (hwf : WF hashF t) :
    find_internal hashF t key = findSpec hashF t key := by
  rcases hwf with he | ⟨hgeom, -⟩
  · subst he
    rfl
  · have hpow := geom_pow hgeom
    unfold find_internal findSpec
    by_cases hsz : t.size = 0
    · rw [if_pos hsz, if_pos hsz]
    · rw [if_neg hsz, if_neg hsz]
      show findLoop t key (h2 (hashF key)) t.groups
          (h1 (hashF key) &&& (t.groups - 1)) = _
      rw [land_mask' hpow]
      exact findLoop_eq_findSpecLoop hpow t.groups _

theorem two_tri (n : Nat) : 2 * tri n = n * (n + 1) :=
  Nat.mul_div_cancel' (Nat.even_mul_succ_self n).two_dvd

theorem tri_succ (n : Nat) : tri (n + 1) = tri n + (n + 1) := by
  unfold tri
  have h1 : (n + 1) * (n + 1 + 1) = n * (n + 1) + (n + 1) * 2 := by ring
  rw [h1, Nat.add_mul_div_right _ _ (by omega : (0:Nat) < 2)]

theorem tri_mono {a b : Nat} (h : a ≤ b) : tri a ≤ tri b :=
  Nat.div_le_div_right (Nat.mul_le_mul h (by omega))

theorem quadSeq_closed {m : Nat} {g0 : Nat} (hg0 : g0 < 2 ^ m) :
    ∀ n, quadSeq (2 ^ m) g0 n = (g0 + tri n) % 2 ^ m := by
  intro n
  induction n with
  | zero =>
    show g0 = (g0 + 0) % 2 ^ m
    rw [Nat.add_zero, Nat.mod_eq_of_lt hg0]
  | succ n ih =>
    show quadStep (2 ^ m) (quadSeq (2 ^ m) g0 n) n = _
    unfold quadStep
    rw [ih, land_mask' ⟨m, rfl⟩, Nat.add_assoc, Nat.mod_add_mod, tri_succ]
    congr 1
    omega

theorem quadSeq_lt {m : Nat} {g0 : Nat} (hg0 : g0 < 2 ^ m) (n : Nat) :
    quadSeq (2 ^ m) g0 n < 2 ^ m := by
  rw [quadSeq_closed hg0]
  exact Nat.mod_lt _ (Nat.pos_pow_of_pos m (by omega))

theorem tri_modEq_of_lt {m : Nat} {n1 n2 : Nat} (hlt : n1 < n2)
    (h2m : n2 < 2 ^ m) (he : tri n1 ≡ tri n2 [MOD 2 ^ m]) : False := by
  have hle : tri n1 ≤ tri n2 := tri_mono (by omega)
  obtain ⟨q, hq⟩ := (Nat.modEq_iff_dvd' hle).mp he
  have htr2 : tri n2 = tri n1 + 2 ^ m * q := by omega
  have hd : 0 < n2 - n1 := by omega
  obtain ⟨d, hdd⟩ := Nat.exists_eq_add_of_le (le_of_lt hlt)
  have hident : (n2 - n1) * (n1 + n2 + 1) + 2 * tri n1 = 2 * tri n2 := by
    subst hdd
    rw [two_tri, two_tri]
    have hsub : n1 + d - n1 = d := by omega
    rw [hsub]
    ring
  have h2q : 2 * tri n2 = 2 * tri n1 + 2 ^ (m + 1) * q := by
    rw [htr2, pow_succ]
    ring
  have hX : (n2 - n1) * (n1 + n2 + 1) = 2 ^ (m + 1) * q := by linarith
  have hdvd : 2 ^ (m + 1) ∣ (n2 - n1) * (n1 + n2 + 1) := ⟨q, hX⟩
  rcases Nat.even_or_odd (n2 - n1) with hev | hod
  · -- n2 - n1 even, so n1 + n2 + 1 is odd
    have hodd_s : ¬ (2 ∣ (n1 + n2 + 1)) := by
      obtain ⟨k, hk⟩ := hev
      omega
    have hcop : Nat.Coprime (2 ^ (m + 1)) (n1 + n2 + 1) :=
      Nat.Coprime.pow_left (m + 1)
        ((Nat.Prime.coprime_iff_not_dvd Nat.prime_two).mpr hodd_s)
    have hdvd_d : 2 ^ (m + 1) ∣ (n2 - n1) := hcop.dvd_of_dvd_mul_right hdvd
    have hlt_d : n2 - n1 < 2 ^ (m + 1) := by
      have : 2 ^ m < 2 ^ (m + 1) := by
        rw [pow_succ]; omega
      omega
    have := Nat.eq_zero_of_dvd_of_lt hdvd_d (by omega)
    omega
  · -- n2 - n1 odd
    have hodd_d : ¬ (2 ∣ (n2 - n1)) := by
      obtain ⟨k, hk⟩ := hod
      omega
    have hcop : Nat.Coprime (2 ^ (m + 1)) (n2 - n1) :=
      Nat.Coprime.pow_left (m + 1)
        ((Nat.Prime.coprime_iff_not_dvd Nat.prime_two).mpr hodd_d)
    have hdvd_s : 2 ^ (m + 1) ∣ (n1 + n2 + 1) := hcop.dvd_of_dvd_mul_left hdvd
    have hlt_s : n1 + n2 + 1 < 2 ^ (m + 1) := by
      rw [pow_succ]
      omega
    have := Nat.eq_zero_of_dvd_of_lt hdvd_s hlt_s
    omega

theorem quadSeq_inj {m g0 : Nat} (hg0 : g0 < 2 ^ m) {n1 n2 : Nat}
    (h1 : n1 < 2 ^ m) (h2 : n2 < 2 ^ m)
    (he : quadSeq (2 ^ m) g0 n1 = quadSeq (2 ^ m) g0 n2) : n1 = n2 := by
  rw [quadSeq_closed hg0, quadSeq_closed hg0] at he
  have hmod : tri n1 ≡ tri n2 [MOD 2 ^ m] :=
    Nat.ModEq.add_left_cancel' g0 he
  rcases Nat.lt_trichotomy n1 n2 with hlt | heq | hgt
  · exact absurd (tri_modEq_of_lt hlt h2 hmod) (by simp)
  · exact heq
  · exact absurd (tri_modEq_of_lt hgt h1 hmod.symm) (by simp)

theorem quadSeq_surj {m g0 : Nat} (hg0 : g0 < 2 ^ m) {gt : Nat}
    (hgt : gt < 2 ^ m) : ∃ n < 2 ^ m, quadSeq (2 ^ m) g0 n = gt := by
  have hpos : 0 < 2 ^ m := Nat.pos_pow_of_pos m (by omega)
  let f : Fin (2 ^ m) → Fin (2 ^ m) :=
    fun n => ⟨quadSeq (2 ^ m) g0 n.1, quadSeq_lt hg0 n.1⟩
  have hinj : Function.Injective f := by
    intro a b hab
    exact Fin.ext (quadSeq_inj hg0 a.2 b.2 (congrArg Fin.val hab))
  have hsurj : Function.Surjective f :=
    Finite.surjective_of_injective hinj
  obtain ⟨n, hn⟩ := hsurj ⟨gt, hgt⟩
  exact ⟨n.1, n.2, congrArg Fin.val hn⟩

theorem atEnd_iff_last {t : Table K} (hgeom : Geom t) (hsent : SentinelOk t)
    {g : Nat} (hg : g < t.groups) :
    groupAtEnd t (g * LANE) = true ↔ g + 1 = t.groups := by
  obtain ⟨-, hlen, hcap, -, -⟩ := hgeom
  constructor
  · intro h
    unfold groupAtEnd at h
    rw [List.any_eq_true] at h
    obtain ⟨l, hl, hp⟩ := h
    have hl' : l < LANE := List.mem_range.mp hl
    have hps : ctrlAt t (g * LANE + l) = ctrlSentinel := by simpa using hp
    have hnotlt : ¬ (g * LANE + l < t.capacity) := fun hlt =>
      hsent.2 _ hlt hps
    simp only [LANE] at hl' hlen hnotlt
    omega
  · intro h
    unfold groupAtEnd
    rw [List.any_eq_true]
    refine ⟨LANE - 1, List.mem_range.mpr (by simp [LANE]), ?_⟩
    have hidx : g * LANE + (LANE - 1) = t.capacity := by
      simp only [LANE] at hlen ⊢
      omega
    rw [hidx, hsent.1]
    simp

theorem skipAligned_spec {t : Table K} (hgeom : Geom t) (hsent : SentinelOk t) :
    ∀ fuel g, g < t.groups → t.groups ≤ g + fuel →
      ∃ q, skipAligned t fuel (g * LANE) = some q ∧ IsNextLive t (g * LANE) q := by
  have hlen : t.ctrlLen = LANE * t.groups := hgeom.2.1
  intro fuel
  induction fuel with
  | zero => intro g hg hf; omega
  | succ fuel ih =>
    intro g hg hf
    rw [skipAligned]
    cases hff : groupFirstFull t (g * LANE) with
    | some l =>
      obtain ⟨hl, hp, hbefore⟩ := range_find?_eq_some.mp hff
      refine ⟨g * LANE + l, rfl, Nat.le_add_right _ _, ?_, ?_, Or.inr hp⟩
      · simp only [LANE] at hl hlen ⊢
        omega
      · intro r hr1 hr2
        have hb := hbefore (r - g * LANE) (by omega)
        have hre : g * LANE + (r - g * LANE) = r := by omega
        rw [hre] at hb
        exact hb
    | none =>
      have hnofull : ∀ l < LANE, isFullByte (ctrlAt t (g * LANE + l)) = false :=
        range_find?_eq_none.mp hff
      have hnofull' : ∀ r, g * LANE ≤ r → r < g * LANE + LANE →
          isFullByte (ctrlAt t r) = false := by
        intro r hr1 hr2
        have hb := hnofull (r - g * LANE) (by omega)
        have hre : g * LANE + (r - g * LANE) = r := by omega
        rw [hre] at hb
        exact hb
      by_cases hend : groupAtEnd t (g * LANE) = true
      · rw [if_pos hend]
        have hlast : g + 1 = t.groups := (atEnd_iff_last hgeom hsent hg).mp hend
        have hcl : g * LANE + LANE = t.ctrlLen := by
          simp only [LANE] at hlen ⊢
          omega
        exact ⟨g * LANE + LANE, rfl, Nat.le_add_right _ _, le_of_eq hcl,
          fun r hr1 hr2 => hnofull' r hr1 hr2, Or.inl hcl⟩
      · rw [if_neg hend]
        have hg1 : g + 1 < t.groups := by
          rcases Nat.lt_or_ge (g + 1) t.groups with h | h
          · exact h
          · have : g + 1 = t.groups := by omega
            exact absurd ((atEnd_iff_last hgeom hsent hg).mpr this) hend
        have hstep : g * LANE + LANE = (g + 1) * LANE := by ring
        rw [hstep]
        obtain ⟨q, hq, hle1, hle2, hmid, hfin⟩ := ih (g + 1) hg1 (by omega)
        refine ⟨q, hq, ?_, hle2, ?_, hfin⟩
        · have : g * LANE ≤ (g + 1) * LANE := Nat.mul_le_mul_right _ (by omega)
          omega
        · intro r hr1 hr2
          rcases Nat.lt_or_ge r ((g + 1) * LANE) with h | h
          · exact hnofull' r hr1 (by rw [hstep]; exact h)
          · exact hmid r h hr2

theorem skipEmptySlots_spec {t : Table K} (hgeom : Geom t)
    (hsent : SentinelOk t) {p : Nat} (hp : p < t.ctrlLen) :
    ∃ q, skipEmptySlots t p = some q ∧ IsNextLive t p q := by
  have hlen16 : t.ctrlLen = 16 * t.groups := by
    simpa [LANE] using hgeom.2.1
  have hL : LANE = 16 := rfl
  have hgl : p / LANE < t.groups := by
    rw [hL]
    omega
  unfold skipEmptySlots
  by_cases hal : p / LANE * LANE = p
  · rw [if_pos hal]
    obtain ⟨q, hq, hlive⟩ :=
      skipAligned_spec hgeom hsent t.groups (p / LANE) hgl
        (Nat.le_add_left _ _)
    rw [hal] at hq hlive
    exact ⟨q, hq, hlive⟩
  · rw [if_neg hal]
    rw [hL] at hal hgl ⊢
    have hoff1 : 1 ≤ p - p / 16 * 16 := by omega
    have hoffle : p - p / 16 * 16 < 16 := by omega
    cases hnf : groupNextFull t (p / 16 * 16) (p - p / 16 * 16) with
    | some l =>
      obtain ⟨hl, hpl, hbefore⟩ := range_find?_eq_some.mp hnf
      rw [Bool.and_eq_true_iff] at hpl
      obtain ⟨hoffl, hfl⟩ := hpl
      have hoffl' : p - p / 16 * 16 ≤ l := of_decide_eq_true hoffl
      have hlL : l < 16 := by simpa [LANE] using hl
      refine ⟨p / 16 * 16 + l, rfl, by omega, by omega, ?_, Or.inr hfl⟩
      intro r hr1 hr2
      have hb := hbefore (r - p / 16 * 16) (by omega)
      rw [Bool.and_eq_false_iff] at hb
      rcases hb with hd | hful
      · have : p - p / 16 * 16 ≤ r - p / 16 * 16 := by omega
        rw [decide_eq_true this] at hd
        cases hd
      · have hre : p / 16 * 16 + (r - p / 16 * 16) = r := by omega
        rw [hre] at hful
        exact hful
    | none =>
      have hnofull : ∀ l < LANE,
          (decide (p - p / 16 * 16 ≤ l) &&
            isFullByte (ctrlAt t (p / 16 * 16 + l))) = false :=
        range_find?_eq_none.mp hnf
      have hnofull' : ∀ r, p ≤ r → r < p / 16 * 16 + 16 →
          isFullByte (ctrlAt t r) = false := by
        intro r hr1 hr2
        have hb := hnofull (r - p / 16 * 16) (by simp only [LANE]; omega)
        rw [Bool.and_eq_false_iff] at hb
        rcases hb with hd | hful
        · have : p - p / 16 * 16 ≤ r - p / 16 * 16 := by omega
          rw [decide_eq_true this] at hd
          cases hd
        · have hre : p / 16 * 16 + (r - p / 16 * 16) = r := by omega
          rw [hre] at hful
          exact hful
      by_cases hend : groupAtEnd t (p / 16 * 16) = true
      · rw [if_pos hend]
        have hend' : groupAtEnd t (p / 16 * LANE) = true := hend
        have hlast : p / 16 + 1 = t.groups :=
          (atEnd_iff_last hgeom hsent hgl).mp hend'
        have hcl : p / 16 * 16 + 16 = t.ctrlLen := by omega
        exact ⟨p / 16 * 16 + 16, rfl, by omega, le_of_eq hcl,
          fun r hr1 hr2 => hnofull' r hr1 hr2, Or.inl hcl⟩
      · rw [if_neg hend]
        have hg1 : p / 16 + 1 < t.groups := by
          rcases Nat.lt_or_ge (p / 16 + 1) t.groups with h | h
          · exact h
          · have heq : p / 16 + 1 = t.groups := by omega
            have hend2 :=
              (atEnd_iff_last hgeom hsent hgl).mpr heq
            have hend3 : groupAtEnd t (p / 16 * 16) = true := hend2
            exact absurd hend3 hend
        rw [show p / 16 * 16 + 16 = (p / 16 + 1) * 16 from by ring]
        obtain ⟨q, hq, hle1, hle2, hmid, hfin⟩ :=
          skipAligned_spec hgeom hsent t.groups (p / 16 + 1) hg1
            (Nat.le_add_left _ _)
        have hq16 : skipAligned t t.groups ((p / 16 + 1) * 16) = some q := hq
        have hle1' : (p / 16 + 1) * 16 ≤ q := hle1
        refine ⟨q, hq16, by omega, hle2, ?_, hfin⟩
        intro r hr1 hr2
        rcases Nat.lt_or_ge r ((p / 16 + 1) * 16) with h | h
        · exact hnofull' r hr1 (by omega)
        · have hmid' : ∀ r, (p / 16 + 1) * 16 ≤ r → r < q →
              isFullByte (ctrlAt t r) = false := hmid
          exact hmid' r h hr2

theorem itNext_spec {t : Table K} (hgeom : Geom t) (hsent : SentinelOk t)
    {p : Nat} (hp : p < t.capacity) :
    ∃ q, itNext t p = some q ∧ IsNextLive t (p + 1) q := by
  have hcap : t.capacity + 1 = t.ctrlLen := hgeom.2.2.1
  unfold itNext
  by_cases hful : isFullByte (ctrlAt t (p + 1)) = true
  · rw [if_pos hful]
    exact ⟨p + 1, rfl, le_refl _, by omega, fun r h1 h2 => by omega,
      Or.inr hful⟩
  · rw [if_neg hful]
    exact skipEmptySlots_spec hgeom hsent (by omega)

theorem liveFrom_zero (t : Table K) : liveFrom t 0 = liveIdx t := by
  unfold liveFrom liveIdx
  rw [List.range_eq_range', Nat.sub_zero]

theorem liveFrom_nil {t : Table K} {p : Nat}
    (hno : ∀ r, p ≤ r → r < t.capacity → isFullByte (ctrlAt t r) = false) :
    liveFrom t p = [] := by
  unfold liveFrom
  rw [List.filter_eq_nil_iff]
  intro a ha
  have hmem := List.mem_range'_1.mp ha
  simp [hno a hmem.1 (by omega)]

theorem liveFrom_congr {t : Table K} {p q : Nat} (hpq : p ≤ q)
    (hqc : q ≤ t.capacity)
    (hno : ∀ r, p ≤ r → r < q → isFullByte (ctrlAt t r) = false) :
    liveFrom t p = liveFrom t q := by
  unfold liveFrom
  have happ := List.range'_append p (q - p) (t.capacity - q) 1
  rw [show p + 1 * (q - p) = q from by omega,
    show t.capacity - q + (q - p) = t.capacity - p from by omega] at happ
  rw [← happ, List.filter_append]
  have hnil : (List.range' p (q - p)).filter
      (fun i => isFullByte (ctrlAt t i)) = [] := by
    rw [List.filter_eq_nil_iff]
    intro a ha
    have hmem := List.mem_range'_1.mp ha
    simp [hno a hmem.1 (by omega)]
  rw [hnil, List.nil_append]

theorem liveFrom_cons {t : Table K} {q : Nat} (hq : q < t.capacity)
    (hful : isFullByte (ctrlAt t q) = true) :
    liveFrom t q = q :: liveFrom t (q + 1) := by
  unfold liveFrom
  have h1 : t.capacity - q = (t.capacity - (q + 1)) + 1 := by omega
  rw [h1, List.range'_succ, List.filter_cons]
  simp [hful]

theorem collectFrom_spec {t : Table K} (hgeom : Geom t) (hsent : SentinelOk t)
    (hslots : SlotsOk t) :
    ∀ fuel p q, IsNextLive t p q → (liveFrom t p).length < fuel →
      collectFrom t fuel q = some (liveFrom t p) := by
  have hcap : t.capacity + 1 = t.ctrlLen := hgeom.2.2.1
  intro fuel
  induction fuel with
  | zero => intro p q _ h; omega
  | succ fuel ih =>
    intro p q hnl hlen
    obtain ⟨hpq, hqlen, hno, hfin⟩ := hnl
    rw [collectFrom]
    by_cases hqe : q = t.ctrlLen
    · rw [if_pos hqe]
      have hnil : liveFrom t p = [] :=
        liveFrom_nil (fun r h1 h2 => hno r h1 (by omega))
      rw [hnil]
    · rw [if_neg hqe]
      have hful : isFullByte (ctrlAt t q) = true := by
        rcases hfin with h | h
        · exact absurd h hqe
        · exact h
      have hqcap : q < t.capacity := by
        rcases Nat.lt_or_ge q t.capacity with h | h
        · exact h
        · have hq : q = t.capacity := by omega
          rw [hq, hsent.1] at hful
          cases hful
      have hsome : (slotAt t q).isSome := by
        rw [← hslots.1 q hqcap]
        exact hful
      cases hv : slotAt t q with
      | none => rw [hv] at hsome; cases hsome
      | some v =>
        show (itNext t q).bind
            (fun p2 => (collectFrom t fuel p2).map (fun l => q :: l)) =
          some (liveFrom t p)
        obtain ⟨q2, hq2, hnl2⟩ := itNext_spec hgeom hsent hqcap
        rw [hq2, Option.some_bind]
        have hcons : liveFrom t p = q :: liveFrom t (q + 1) := by
          rw [liveFrom_congr hpq (by omega) hno]
          exact liveFrom_cons hqcap hful
        have hlen2 : (liveFrom t (q + 1)).length < fuel := by
          rw [hcons] at hlen
          simpa using Nat.lt_of_succ_lt_succ hlen
        rw [ih (q + 1) q2 hnl2 hlen2]
        show some (q :: liveFrom t (q + 1)) = some (liveFrom t p)
        rw [hcons]

theorem iterPositions_spec {hashF : K → Nat} {t : Table K}
    (hwf : WF hashF t) : iterPositions t = some (liveIdx t) := by
  rcases hwf with he | ⟨hgeom, hsent, hslots, hcount, hreach⟩
  · subst he
    rfl
  · have hgrpos : 0 < t.groups := by
      obtain ⟨⟨m, -, hm⟩, -⟩ := hgeom
      rw [hm]
      exact Nat.pos_pow_of_pos m (by omega)
    have hlen0 : 0 < t.ctrlLen := by
      have := hgeom.2.1
      simp only [LANE] at this
      omega
    unfold iterPositions itBegin
    rw [if_neg (by omega : ¬ (0 = t.ctrlLen))]
    obtain ⟨q, hq, hnl⟩ := skipEmptySlots_spec hgeom hsent hlen0
    rw [hq, Option.some_bind]
    have hflen : (liveFrom t 0).length < t.size + 1 := by
      rw [liveFrom_zero]
      have := fullCount_eq_length_liveIdx t
      have hc := hgeom.2.2.1
      omega
    rw [collectFrom_spec hgeom hsent hslots (t.size + 1) 0 q hnl hflen,
      liveFrom_zero]

/-! ### Helpers for the claim theorems -/

/-- Second emplace of a present key: the duplicate path returns the same
table, the element's index, and `false`. -/
theorem emplace_dup {hashF : K → Nat} {t : Table K} {v : K} {i : Nat}
    (hwf : WF hashF t) (hf : find_internal hashF t v = some i)
    (hne : i ≠ t.ctrlLen) :
    ∀ r, emplace_internal hashF v (hashF v) (r + 1) t = some (t, i, false) := by
  intro r
  obtain ⟨hicap, hslot⟩ := find_hit_loc hwf hf hne
  have hcap0 : ¬ (t.capacity = 0) := by omega
  have hszne : t.size ≠ 0 := by
    rcases hwf with he | ⟨hgeom, hsent, hslots, hcount, -⟩
    · rw [he] at hicap
      simp [Table.empty] at hicap
    · have hpos : 0 < fullCount t := by
        unfold fullCount
        rw [List.countP_pos_iff]
        refine ⟨i, List.mem_range.mpr hicap, ?_⟩
        show isFullByte (ctrlAt t i) = true
        rw [hslots.1 i hicap, hslot]
        rfl
      omega
  have hfl : findLoop t v (h2 (hashF v)) t.groups
      (h1 (hashF v) &&& (t.groups - 1)) = some i := by
    unfold find_internal at hf
    rw [if_neg hszne] at hf
    exact hf
  have hprobe := findLoop_to_probe t.groups _ i hfl hne
  show (if t.capacity = 0 then reserve hashF t 1 else some t).bind _ =
    some (t, i, false)
  rw [if_neg hcap0, Option.some_bind, hprobe]

/-- The erase path of `tryErase` preserves the invariant. -/
theorem tryErase_ok_wf {hashF : K → Nat} {t t' : Table K} {key : K}
    (hwf : WF hashF t) (h : tryErase hashF t key = some (.ok t')) :
    WF hashF t' := by
  unfold tryErase at h
  cases hf : find_internal hashF t key with
  | none => rw [hf] at h; cases h
  | some idx =>
    rw [hf] at h
    have h9 : some (if idx = t.ctrlLen then (Except.error Error.NotFound)
        else Except.ok (erase_slot t idx)) = some (Except.ok t') := h
    by_cases hi : idx = t.ctrlLen
    · rw [if_pos hi] at h9
      exact Except.noConfusion (Option.some_inj.mp h9)
    · rw [if_neg hi] at h9
      have ht' : erase_slot t idx = t' := Except.ok.inj (Option.some_inj.mp h9)
      obtain ⟨hicap, hslot⟩ := find_hit_loc hwf hf hi
      rcases hwf with he | ⟨hgeom, hsent, hslots, hcount, hreach⟩
      · rw [he] at hslot
        simp [slotAt, Table.empty] at hslot
      · have hfull : isFullByte (ctrlAt t idx) = true := by
          rw [hslots.1 idx hicap, hslot]
          rfl
        have hw :=
          (erase_slot_spec hgeom hsent hslots hcount hreach hicap hfull).2.2.2.2.2.1
        rw [ht'] at hw
        exact hw

/-- The growth step of `emplace_internal`: with a non-empty buffer, an
`Empty` probe outcome, and the load-factor check failing, the call reduces
to `reserve(size + 1)` followed by the restarted insertion. -/
theorem emplace_overload_step {hashF : K → Nat} {t : Table K} {v : K}
    {hash : Nat} {idx : Nat} (hcap : ¬ (t.capacity = 0))
    (hprobe : emplaceProbe t v (h2 hash) t.groups
      (h1 hash &&& (t.groups - 1)) = some (.empty idx))
    (hover : 8 * (t.size + 1) > 7 * t.capacity) (r : Nat) :
    emplace_internal hashF v hash (r + 1) t =
      (reserve hashF t (t.size + 1)).bind (emplace_internal hashF v hash r) := by
  show (if t.capacity = 0 then reserve hashF t 1 else some t).bind _ = _
  rw [if_neg hcap, Option.some_bind, hprobe]
  show (if 8 * (t.size + 1) > 7 * t.capacity
      then (reserve hashF t (t.size + 1)).bind (emplace_internal hashF v hash r)
      else some (setSlot t idx (h2 hash) v, idx, true)) = _
  rw [if_pos hover]

/-- Pointwise description of repeated `setD` writes with values `f i` at a
list of in-bounds indices. -/
theorem foldl_setD_getD {α : Type} (f : Nat → α) (d : α) :
    ∀ (l : List Nat) (a : Array α), (∀ i ∈ l, i < a.size) → ∀ j,
      ((l.foldl (fun c i => c.setD i (f i)) a).getD j d =
        if j ∈ l then f j else a.getD j d) ∧
      (l.foldl (fun c i => c.setD i (f i)) a).size = a.size := by
  intro l
  induction l with
  | nil =>
    intro a _ j
    exact ⟨by simp, rfl⟩
  | cons i tl ih =>
    intro a hbound j
    have hisz : i < a.size := hbound i (List.mem_cons_self i tl)
    have hbound' : ∀ x ∈ tl, x < (a.setD i (f i)).size := by
      intro x hx
      rw [Array.size_setD]
      exact hbound x (List.mem_cons_of_mem i hx)
    obtain ⟨hget, hsz⟩ := ih (a.setD i (f i)) hbound' j
    rw [List.foldl_cons]
    refine ⟨?_, by rw [hsz, Array.size_setD]⟩
    rw [hget, getD_setD a i (f i) d hisz j]
    by_cases hmem : j ∈ tl
    · rw [if_pos hmem, if_pos (List.mem_cons_of_mem i hmem)]
    · rw [if_neg hmem]
      by_cases hji : j = i
      · subst hji
        rw [if_pos rfl, if_pos (List.mem_cons_self j tl)]
      · rw [if_neg hji, if_neg (by
          intro h
          rcases List.mem_cons.mp h with h | h
          · exact hji h
          · exact hmem h)]

theorem copyTable_spec {hashF : K → Nat} {t : Table K} (hwf : WF hashF t)
    (hlen : t.ctrlLen ≠ 0) :
    ∃ tc, copyTable t = some tc ∧ tc.groups = t.groups ∧
      tc.capacity = t.capacity ∧ SentinelOk tc := by
  rcases hwf with he | ⟨hgeom, hsent, hslots, hcount, hreach⟩
  · rw [he] at hlen
    exact absurd rfl hlen
  · obtain ⟨hg1, hl, hcap, hg4, hg5⟩ := hgeom
    have hiter : iterPositions t = some (liveIdx t) :=
      iterPositions_spec
        (Or.inr ⟨⟨hg1, hl, hcap, hg4, hg5⟩, hsent, hslots, hcount, hreach⟩)
    have hbound : ∀ i ∈ liveIdx t, i < (freshCtrl t.capacity).size := by
      intro i hi
      have := List.mem_range.mp (List.mem_of_mem_filter hi)
      unfold freshCtrl
      simp
      omega
    have hful : ∀ i ∈ liveIdx t, isFullByte (ctrlAt t i) = true := by
      intro i hi
      exact (List.mem_filter.mp hi).2
    refine ⟨⟨t.size, t.capacity, t.ctrlLen, t.groups,
        (liveIdx t).foldl (fun c i => c.setD i (ctrlAt t i))
          (freshCtrl t.capacity),
        (liveIdx t).foldl (fun s i => s.setD i (slotAt t i))
          (Array.mkArray t.capacity none)⟩,
      by rw [copyTable, if_neg hlen, hiter]; rfl, rfl, rfl, ?_, ?_⟩
    · show ((liveIdx t).foldl (fun c i => c.setD i (ctrlAt t i))
        (freshCtrl t.capacity)).getD t.capacity 0 = ctrlSentinel
      rw [(foldl_setD_getD _ 0 (liveIdx t) (freshCtrl t.capacity) hbound
        t.capacity).1]
      rw [if_neg (by
        intro h
        have := List.mem_range.mp (List.mem_of_mem_filter h)
        omega)]
      rw [getD_freshCtrl]
      rw [if_neg (by omega), if_pos rfl]
    · intro i hi
      show ((liveIdx t).foldl (fun c i => c.setD i (ctrlAt t i))
        (freshCtrl t.capacity)).getD i 0 ≠ ctrlSentinel
      rw [(foldl_setD_getD _ 0 (liveIdx t) (freshCtrl t.capacity) hbound i).1]
      by_cases hmem : i ∈ liveIdx t
      · rw [if_pos hmem]
        exact isFullByte_ne_sentinel (hful i hmem)
      · rw [if_neg hmem, getD_freshCtrl, if_pos hi]
        decide

/-! ### The claims -/

/-- **C1**: The reachability invariant — every live element is located by
`find` at its actual slot (hence before the probe meets any `Empty` byte) —
holds for the default-constructed table and is preserved by
`emplace`/`insert`, `erase(key)`, `tryErase`, `reserve`/`rehash`, and
`clear`, hence by any sequence of these operations. -/
theorem reachability_preserved_by_operations {hashF : K → Nat} :
    WF hashF (Table.empty K) ∧
    (∀ t : Table K, WF hashF t → ReachOk hashF t) ∧
    (∀ (t t' : Table K) (v : K) (idx : Nat) (b : Bool), WF hashF t →
      emplace hashF t v = some (t', idx, b) → WF hashF t') ∧
    (∀ (t t' : Table K) (key : K) (n : Nat), WF hashF t →
      eraseKey hashF t key = some (t', n) → WF hashF t') ∧
    (∀ (t t' : Table K) (key : K), WF hashF t →
      tryErase hashF t key = some (.ok t') → WF hashF t') ∧
    (∀ (t t' : Table K) (n : Nat), WF hashF t →
      reserve hashF t n = some t' → WF hashF t') ∧
    (∀ (t t' : Table K) (ngc : Nat), WF hashF t → (∃ m, ngc = 2 ^ m) →
      0 < ngc → t.size ≤ LANE * ngc - 1 →
      rehashImpl hashF t ngc = some t' → WF hashF t') ∧
    (∀ t : Table K, WF hashF (clear t)) := by
  refine ⟨Or.inl rfl, ?_, ?_, ?_, ?_, ?_, ?_, fun _ => Or.inl rfl⟩
  · intro t hwf
    rcases hwf with he | ⟨-, -, -, -, hr⟩
    · subst he
      intro i hi
      simp [Table.empty] at hi
    · exact hr
  · intro t t' v idx b hwf h
    exact (emplace_internal_spec 2 t t' idx b hwf h).1
  · intro t t' key n hwf h
    exact (eraseKey_spec hwf h).1
  · intro t t' key hwf h
    exact tryErase_ok_wf hwf h
  · intro t t' n hwf h
    obtain ⟨t2, heq, hwf2, -, -, -, -, -, -⟩ := @reserve_spec K _ hashF t n hwf
    rw [h] at heq
    have he2 : t' = t2 := Option.some_inj.mp heq
    rw [he2]
    exact hwf2
  · intro t t' ngc hwf hpow hpos hsz h
    obtain ⟨t2, heq, hwf2, -, -, -, -, -, -⟩ := rehashImpl_spec hwf hpow hpos hsz
    rw [h] at heq
    have he2 : t' = t2 := Option.some_inj.mp heq
    rw [he2]
    exact hwf2

theorem reachability_preserved_by_operations_witness :
    WF idHash (tIns 3) ∧ ReachOk idHash (tIns 3) :=
  ⟨by decide, reachability_preserved_by_operations.2.1 (tIns 3) (by decide)⟩

/-- **C2**: contract of `find(key)`: it agrees with the spec's lookup
algorithm — start at group `h1(H)` reduced by the group count, scan each
probed group's `h2(H)`-matching lanes in order comparing keys, return the
matching slot's absolute index, report not-found on a group with no match
but an `Empty` lane — and a table of `size = 0` (including the
default-constructed one) reports not-found immediately. -/
theorem find_contract {hashF : K → Nat} (t : Table K) (key : K)
    (hwf : WF hashF t) :
    find_internal hashF t key = findSpec hashF t key ∧
    (t.size = 0 → find_internal hashF t key = some t.ctrlLen) := by
  refine ⟨find_internal_eq_findSpec key hwf, fun h => ?_⟩
  unfold find_internal
  rw [if_pos h]

theorem find_contract_witness :
    WF idHash (tIns 3) ∧
      (find_internal idHash (tIns 3) 1 = findSpec idHash (tIns 3) 1 ∧
        ((tIns 3).size = 0 →
          find_internal idHash (tIns 3) 1 = some (tIns 3).ctrlLen)) :=
  ⟨by decide, find_contract (tIns 3) 1 (by decide)⟩

/-- **C3**: after `insert(k)` the query `contains(k)` is true; inserting the
same key twice returns `(i, true)` (when the key was absent) and then
`(i, false)` with the same index, the second call returning the unchanged
table (same element count, same stored element). -/
theorem insert_then_contains_and_double_insert {hashF : K → Nat}
    {t t1 : Table K} {v : K} {i : Nat} {b : Bool} (hwf : WF hashF t)
    (h : emplace hashF t v = some (t1, i, b)) :
    contains hashF t1 v = some true ∧
    slotAt t1 i = some v ∧
    emplace hashF t1 v = some (t1, i, false) ∧
    ((∀ j, slotAt t j ≠ some v) → b = true) := by
  obtain ⟨hwf1, hfind, hlt, hbf, hbt⟩ := emplace_internal_spec 2 t t1 i b hwf h
  have hne : i ≠ t1.ctrlLen := by omega
  obtain ⟨hicap, hslot⟩ := find_hit_loc hwf1 hfind hne
  refine ⟨?_, hslot, emplace_dup hwf1 hfind hne 1, ?_⟩
  · unfold contains
    rw [hfind]
    simp [hne]
  · intro habs
    cases b with
    | true => rfl
    | false =>
      obtain ⟨-, hsl⟩ := hbf rfl
      exact absurd hsl (habs i)

theorem insert_then_contains_and_double_insert_witness :
    WF idHash (tIns 1) ∧ emplace idHash (tIns 1) 1 = some (tIns 2, 1, true) ∧
      (contains idHash (tIns 2) 1 = some true ∧
        slotAt (tIns 2) 1 = some 1 ∧
        emplace idHash (tIns 2) 1 = some (tIns 2, 1, false) ∧
        ((∀ j, slotAt (tIns 1) j ≠ some 1) → true = true)) :=
  ⟨by decide, by decide,
    @insert_then_contains_and_double_insert Nat _ idHash (tIns 1) (tIns 2)
      1 1 true (by decide) (by decide)⟩

/-- **C4** (the `QuadraticProbing` policy is modelled from the spec; its
source is not under `src/`): the quadratic probe sequence advances by the
triangular-number stride `g_{i+1} = (g_i + i + 1) & (groups − 1)`, and for
a power-of-two group count the sequence started at any natural group visits
every group exactly once in `2^m` steps. -/
theorem quadratic_probing_stride_and_permutation :
    (∀ groups g i, quadStep groups g i = (g + i + 1) &&& (groups - 1)) ∧
    (∀ groups g0 n, quadSeq groups g0 (n + 1) =
      (quadSeq groups g0 n + n + 1) &&& (groups - 1)) ∧
    (∀ m g0, g0 < 2 ^ m → ∀ g1, g1 < 2 ^ m →
      ∃! n, n < 2 ^ m ∧ quadSeq (2 ^ m) g0 n = g1) := by
  refine ⟨fun groups g i => rfl, fun groups g0 n => rfl, ?_⟩
  intro m g0 hg0 g1 hg1
  obtain ⟨n, hn, hqn⟩ := quadSeq_surj hg0 hg1
  refine ⟨n, ⟨hn, hqn⟩, ?_⟩
  rintro y ⟨hy, hqy⟩
  exact quadSeq_inj hg0 hy hn (by rw [hqy, hqn])

theorem quadratic_probing_stride_and_permutation_witness :
    (1 : Nat) < 2 ^ 2 ∧ (3 : Nat) < 2 ^ 2 ∧
      ∃! n, n < 2 ^ 2 ∧ quadSeq (2 ^ 2) 1 n = 3 :=
  ⟨by decide, by decide,
    quadratic_probing_stride_and_permutation.2.2 2 1 (by decide) 3 (by decide)⟩

/-- **C5**: erasing a full slot destroys its element, decrements `size` by
one, sets the slot's control byte to `Empty` when the slot's group-aligned
group currently holds an `Empty` lane and to `Deleted` otherwise, and
changes no other control byte (nor any other slot). -/
theorem erase_slot_contract {hashF : K → Nat} {t : Table K} {j : Nat}
    (hwf : WF hashF t) (hj : j < t.capacity)
    (hfull : isFullByte (ctrlAt t j) = true) :
    slotAt (erase_slot t j) j = none ∧
    (erase_slot t j).size + 1 = t.size ∧
    ctrlAt (erase_slot t j) j =
      (if groupAnyEmpty t (j / LANE) then ctrlEmpty else ctrlDeleted) ∧
    (∀ i, i ≠ j → ctrlAt (erase_slot t j) i = ctrlAt t i) ∧
    (∀ i, i ≠ j → slotAt (erase_slot t j) i = slotAt t i) := by
  rcases hwf with he | ⟨hgeom, hsent, hslots, hcount, hreach⟩
  · subst he
    simp [Table.empty] at hj
  · obtain ⟨h1', h2', h3', h4', h5', -, -⟩ :=
      erase_slot_spec hgeom hsent hslots hcount hreach hj hfull
    exact ⟨h1', h2', h3', h4', h5'⟩

theorem erase_slot_contract_witness :
    WF idHash (tIns 5) ∧ 2 < (tIns 5).capacity ∧
      isFullByte (ctrlAt (tIns 5) 2) = true ∧
      (slotAt (erase_slot (tIns 5) 2) 2 = none ∧
        (erase_slot (tIns 5) 2).size + 1 = (tIns 5).size ∧
        ctrlAt (erase_slot (tIns 5) 2) 2 =
          (if groupAnyEmpty (tIns 5) (2 / LANE) then ctrlEmpty
            else ctrlDeleted) ∧
        (∀ i, i ≠ 2 → ctrlAt (erase_slot (tIns 5) 2) i = ctrlAt (tIns 5) i) ∧
        (∀ i, i ≠ 2 → slotAt (erase_slot (tIns 5) 2) i = slotAt (tIns 5) i)) :=
  ⟨by decide, by decide, by decide,
    @erase_slot_contract Nat _ idHash (tIns 5) 2 (by decide) (by decide)
      (by decide)⟩

/-- **C6**: key-based removal succeeds exactly on present keys:
`erase(key)` removes the element and returns 1 when the key is live, and
returns 0 leaving the table unchanged otherwise; `tryErase(key)` returns
the erased table on a hit and `NotFound` on a miss, and `get(key)` returns
the stored element on a hit and `NotFound` on a miss. -/
theorem key_removal_contract {hashF : K → Nat} {t : Table K}
    (hwf : WF hashF t) (key : K) :
    (∀ t' n, eraseKey hashF t key = some (t', n) →
      ((∃ i, i < t.capacity ∧ slotAt t i = some key) →
        n = 1 ∧ t'.size + 1 = t.size ∧ ∀ j, slotAt t' j ≠ some key) ∧
      ((∀ j, slotAt t j ≠ some key) → n = 0 ∧ t' = t)) ∧
    (∀ res, tryErase hashF t key = some res →
      ((∃ i, i < t.capacity ∧ slotAt t i = some key) →
        ∃ t', res = .ok t' ∧ t'.size + 1 = t.size ∧
          ∀ j, slotAt t' j ≠ some key) ∧
      ((∀ j, slotAt t j ≠ some key) → res = .error .NotFound)) ∧
    (∀ res, get hashF t key = some res →
      ((∃ i, i < t.capacity ∧ slotAt t i = some key) → res = .ok key) ∧
      ((∀ j, slotAt t j ≠ some key) → res = .error .NotFound)) := by
  refine ⟨?_, ?_, ?_⟩
  · intro t' n h
    obtain ⟨-, hpres, habs⟩ := eraseKey_spec hwf h
    refine ⟨?_, habs⟩
    intro hex
    obtain ⟨h1', h2', h3', -⟩ := hpres hex
    exact ⟨h1', h2', h3'⟩
  · intro res h
    obtain ⟨hpres, habs⟩ := tryErase_spec hwf h
    refine ⟨?_, habs⟩
    intro hex
    obtain ⟨t', hres, -, hsz, hrem⟩ := hpres hex
    exact ⟨t', hres, hsz, hrem⟩
  · intro res h
    exact get_spec hwf h

theorem key_removal_contract_witness :
    WF idHash (tIns 3) ∧ eraseKey idHash (tIns 3) 1 = some (tDel, 1) ∧
      tDel.size + 1 = (tIns 3).size :=
  ⟨by decide, by decide,
    (((@key_removal_contract Nat _ idHash (tIns 3) (by decide) 1).1
      tDel 1 (by decide)).1 ⟨1, by decide, by decide⟩).2.1⟩

/-- **C7**: growth sizing: `reserve(n)` with
`ceil(n / (7/8)) = desiredCapacity n` at most the current capacity changes
nothing; otherwise (also when triggered by an insert exceeding the load
limit, which reserves `size + 1`) the table grows to the smallest
power-of-two group count whose capacity `LANE·groups − 1` is at least
`desiredCapacity n`, and its capacity is exactly `LANE·groups − 1`. -/
theorem growth_sizing {hashF : K → Nat} :
    (∀ (t t' : Table K) (n : Nat), WF hashF t → reserve hashF t n = some t' →
      (desiredCapacity n ≤ t.capacity → t' = t) ∧
      (¬ desiredCapacity n ≤ t.capacity →
        (∃ k, t'.groups = 2 ^ k) ∧
        desiredCapacity n ≤ LANE * t'.groups - 1 ∧
        (∀ j, desiredCapacity n + 1 ≤ LANE * 2 ^ j → t'.groups ≤ 2 ^ j) ∧
        t'.capacity = LANE * t'.groups - 1)) ∧
    (∀ (t : Table K) (v : K) (hash r idx : Nat), ¬ t.capacity = 0 →
      emplaceProbe t v (h2 hash) t.groups (h1 hash &&& (t.groups - 1)) =
        some (.empty idx) →
      8 * (t.size + 1) > 7 * t.capacity →
      emplace_internal hashF v hash (r + 1) t =
        (reserve hashF t (t.size + 1)).bind (emplace_internal hashF v hash r)) := by
  refine ⟨?_, fun t v hash r idx hcap hprobe hover =>
    emplace_overload_step hcap hprobe hover r⟩
  intro t t' n hwf h
  obtain ⟨t2, heq, -, -, -, -, -, hnoop, hgrow⟩ := @reserve_spec K _ hashF t n hwf
  rw [h] at heq
  have he2 : t' = t2 := Option.some_inj.mp heq
  subst he2
  refine ⟨hnoop, ?_⟩
  intro hnle
  obtain ⟨hg', hc', -⟩ := hgrow hnle
  obtain ⟨⟨k, hk⟩, -, hge, hmin⟩ := findSmallestN_spec (desiredCapacity n)
  refine ⟨⟨k, by rw [hg', hk]⟩, ?_, ?_, hc'⟩
  · rw [hg']
    simp only [LANE] at hge ⊢
    omega
  · intro j hj
    rw [hg']
    exact hmin j hj

set_option maxRecDepth 40000 in

theorem growth_sizing_witness :
    WF idHash (tIns 3) ∧ reserve idHash (tIns 3) 100 = some tRes ∧
      ¬ desiredCapacity 100 ≤ (tIns 3).capacity ∧
      ((∃ k, tRes.groups = 2 ^ k) ∧
        desiredCapacity 100 ≤ LANE * tRes.groups - 1 ∧
        (∀ j, desiredCapacity 100 + 1 ≤ LANE * 2 ^ j → tRes.groups ≤ 2 ^ j) ∧
        tRes.capacity = LANE * tRes.groups - 1) :=
  ⟨by decide, by decide, by decide,
    (((@growth_sizing Nat _ idHash).1 (tIns 3) tRes 100 (by decide)
      (by decide)).2 (by decide))⟩

/-- **C8**: between public operations, an allocated table carries the
sentinel exactly at index `capacity` and nowhere below it, and the group
count is zero (default-constructed) or a power of two; both properties are
re-established by every (successful) rehash and by the copy constructor. -/
theorem sentinel_and_pow2_invariants {hashF : K → Nat} :
    (∀ t : Table K, WF hashF t → t.groups = 0 ∨ ∃ m, t.groups = 2 ^ m) ∧
    (∀ t : Table K, WF hashF t → t.ctrlLen ≠ 0 →
      ctrlAt t t.capacity = ctrlSentinel ∧
        ∀ i < t.capacity, ctrlAt t i ≠ ctrlSentinel) ∧
    (∀ (t t' : Table K) (ngc : Nat), WF hashF t → (∃ m, ngc = 2 ^ m) →
      0 < ngc → t.size ≤ LANE * ngc - 1 → rehashImpl hashF t ngc = some t' →
      (ctrlAt t' t'.capacity = ctrlSentinel ∧
        ∀ i < t'.capacity, ctrlAt t' i ≠ ctrlSentinel) ∧
      ∃ m, t'.groups = 2 ^ m) ∧
    (∀ t : Table K, WF hashF t → t.ctrlLen ≠ 0 →
      ∃ tc, copyTable t = some tc ∧
        (ctrlAt tc tc.capacity = ctrlSentinel ∧
          ∀ i < tc.capacity, ctrlAt tc i ≠ ctrlSentinel) ∧
        tc.groups = t.groups) := by
  refine ⟨?_, ?_, ?_, ?_⟩
  · intro t hwf
    rcases hwf with he | ⟨⟨⟨m, -, hm⟩, -⟩, -⟩
    · subst he
      exact Or.inl rfl
    · exact Or.inr ⟨m, hm⟩
  · intro t hwf hlen
    rcases hwf with he | ⟨-, hsent, -⟩
    · subst he
      exact absurd rfl hlen
    · exact hsent
  · intro t t' ngc hwf hpow hpos hsz h
    obtain ⟨t2, heq, hwf2, hg2, -, -, -, -, -⟩ :=
      rehashImpl_spec hwf hpow hpos hsz
    rw [h] at heq
    have he2 : t' = t2 := Option.some_inj.mp heq
    subst he2
    rcases hwf2 with he | ⟨-, hsent2, -⟩
    · rw [he] at hg2
      have : t.size = t.size := rfl
      exact absurd hg2.symm (by simp [Table.empty]; omega)
    · obtain ⟨m, hm⟩ := hpow
      exact ⟨hsent2, m, by rw [hg2, hm]⟩
  · intro t hwf hlen
    obtain ⟨tc, hc, hg, -, hsent⟩ := copyTable_spec hwf hlen
    exact ⟨tc, hc, hsent, hg⟩

theorem sentinel_and_pow2_invariants_witness :
    WF idHash (tIns 3) ∧ (tIns 3).ctrlLen ≠ 0 ∧
      (ctrlAt (tIns 3) (tIns 3).capacity = ctrlSentinel ∧
        ∀ i < (tIns 3).capacity, ctrlAt (tIns 3) i ≠ ctrlSentinel) :=
  ⟨by decide, by decide,
    (@sentinel_and_pow2_invariants Nat _ idHash).2.1 (tIns 3) (by decide)
      (by decide)⟩

/-- **C9**: iterating from `begin()` to `end()` visits exactly the table's
live positions, in layout order, each exactly once, skipping `Empty` and
`Deleted` slots and crossing group boundaries, and stops at the sentinel;
the collected elements are exactly the live elements (`size` many); in
particular the table holding the 17 keys `0..16` (which spans two groups)
iterates precisely `0, 1, …, 16`. -/
theorem iteration_visits_live_elements {hashF : K → Nat} (t : Table K)
    (hwf : WF hashF t) :
    iterPositions t = some (liveIdx t) ∧
    (liveIdx t).Nodup ∧
    (∃ es, iterElems t = some es ∧ es.length = t.size ∧
      ∀ v : K, v ∈ es ↔ ∃ i, i < t.capacity ∧ slotAt t i = some v) ∧
    (1 < (tIns 17).groups ∧ iterElems (tIns 17) = some (List.range 17)) := by
  have hpos := iterPositions_spec hwf
  have hnd : (liveIdx t).Nodup := (List.nodup_range t.capacity).filter _
  refine ⟨hpos, hnd, ?_, by decide, by decide⟩
  have hesome : ∀ i ∈ liveIdx t, (slotAt t i).isSome := by
    intro i hi
    have hic := List.mem_range.mp (List.mem_of_mem_filter hi)
    have hful : isFullByte (ctrlAt t i) = true := (List.mem_filter.mp hi).2
    rcases hwf with he | ⟨-, -, hslots, -⟩
    · subst he
      simp [Table.empty] at hic
    · rw [← hslots.1 i hic]
      exact hful
  refine ⟨(liveIdx t).filterMap (slotAt t), ?_, ?_, ?_⟩
  · unfold iterElems
    rw [hpos]
    rfl
  · rw [(map_eq_map_some hesome).2]
    rw [← fullCount_eq_length_liveIdx]
    rcases hwf with he | ⟨-, -, -, hcount, -⟩
    · subst he
      rfl
    · exact hcount.symm
  · intro v
    rw [List.mem_filterMap]
    constructor
    · rintro ⟨i, hi, hv⟩
      exact ⟨i, List.mem_range.mp (List.mem_of_mem_filter hi), hv⟩
    · rintro ⟨i, hic, hv⟩
      refine ⟨i, List.mem_filter.mpr ⟨List.mem_range.mpr hic, ?_⟩, hv⟩
      rcases hwf with he | ⟨-, -, hslots, -⟩
      · subst he
        simp [Table.empty] at hic
      · rw [hslots.1 i hic, hv]
        rfl

theorem iteration_visits_live_elements_witness :
    WF idHash (tIns 3) ∧ iterPositions (tIns 3) = some (liveIdx (tIns 3)) :=
  ⟨by decide,
    (@iteration_visits_live_elements Nat _ idHash (tIns 3) (by decide)).1⟩

/-- **C10** (implicit): insertion never reuses tombstones — a successful
new placement writes into a slot whose control byte was `Empty` in the
pre-placement table (the first `Empty` lane of the first probed group
holding one, per the probe outcome); a `Deleted` byte is never overwritten
by an insertion, and disappears only when a rehash rebuilds the control
array (the rebuilt array holds no `Deleted` byte) or `clear` discards it. -/
theorem insertion_never_reuses_tombstones {hashF : K → Nat} :
    (∀ (t t' : Table K) (v : K) (idx : Nat), WF hashF t →
      emplace hashF t v = some (t', idx, true) →
      ∃ t0 : Table K, WF hashF t0 ∧ ctrlAt t0 idx = ctrlEmpty ∧
        emplaceProbe t0 v (h2 (hashF v)) t0.groups
          (h1 (hashF v) &&& (t0.groups - 1)) = some (.empty idx) ∧
        t' = setSlot t0 idx (h2 (hashF v)) v ∧ t'.size = t0.size + 1) ∧
    (∀ (t t' : Table K) (ngc : Nat), WF hashF t → (∃ m, ngc = 2 ^ m) →
      0 < ngc → t.size ≤ LANE * ngc - 1 → rehashImpl hashF t ngc = some t' →
      ∀ j < t'.capacity, ctrlAt t' j ≠ ctrlDeleted) ∧
    (∀ t : Table K, clear t = Table.empty K) := by
  refine ⟨?_, ?_, fun _ => rfl⟩
  · intro t t' v idx hwf h
    obtain ⟨-, -, -, -, hbt⟩ := emplace_internal_spec 2 t t' idx true hwf h
    obtain ⟨-, t0, hwf0, hsz0, hc0, hprobe0, ht', hsz'⟩ := hbt rfl
    exact ⟨t0, hwf0, hc0, hprobe0, ht', hsz'⟩
  · intro t t' ngc hwf hpow hpos hsz h
    obtain ⟨t2, heq, -, -, -, -, -, -, hnodel⟩ :=
      rehashImpl_spec hwf hpow hpos hsz
    rw [h] at heq
    have he2 : t' = t2 := Option.some_inj.mp heq
    subst he2
    exact hnodel

theorem insertion_never_reuses_tombstones_witness :
    WF idHash (tIns 1) ∧ emplace idHash (tIns 1) 1 = some (tIns 2, 1, true) ∧
      ∃ t0 : Table Nat, WF idHash t0 ∧ ctrlAt t0 1 = ctrlEmpty ∧
        emplaceProbe t0 1 (h2 (idHash 1)) t0.groups
          (h1 (idHash 1) &&& (t0.groups - 1)) = some (.empty 1) ∧
        tIns 2 = setSlot t0 1 (h2 (idHash 1)) 1 ∧
        (tIns 2).size = t0.size + 1 :=
  ⟨by decide, by decide,
    (@insertion_never_reuses_tombstones Nat _ idHash).1 (tIns 1) (tIns 2) 1 1
      (by decide) (by decide)⟩

end AlpSet
